import Mathlib

/-!
Shallow embedding of the veNum tensor core (src/core/shape.rs and
src/core/tensor.rs) together with proofs about its shape/stride algebra,
data access, broadcasting, reduction and copy-on-write operations.

Conventions of the embedding:
* Rust `usize` arithmetic is `Nat`; a subtraction that would underflow in
  Rust (a panic in debug builds, a wrapped value that immediately triggers
  an out-of-bounds panic in release builds) is modelled by the checked
  subtraction `csub`, which returns `none` on underflow.
* A Rust `panic!` / failed `expect` / out-of-bounds index and a returned
  `Err` are both modelled as `none`: every fallible operation returns an
  `Option`.
* The reference-counted backing buffer `Arc<Vec<T>>` is modelled as a
  `Buf`: an allocation identifier together with the element list.
  `Arc::clone` copies the `Buf` value (same identifier); `Arc::new` (a
  fresh allocation) takes the next unused identifier as an explicit
  argument, with the invariant that every live buffer has a smaller id.
-/

namespace VeNum

/-- Checked `usize` subtraction: `none` models the Rust underflow panic. -/
def csub (a b : Nat) : Option Nat :=
  if b ≤ a then some (a - b) else none

/-- Collect a list of optional values; `none` anywhere makes the whole
result `none` (models `collect::<Res<Vec<_>>>()` / a panic inside a loop). -/
def collectSome {α : Type} : List (Option α) → Option (List α)
  | [] => some []
  | o :: rest =>
    match o, collectSome rest with
    | some a, some l => some (a :: l)
    | _, _ => none

/-- Stride from src/core/shape.rs: `Positive(magnitude)` or
`Negative(magnitude)`. -/
inductive Stride : Type where
  | pos (m : Nat)
  | neg (m : Nat)
deriving DecidableEq, Repr

namespace Stride

/-- `Stride::new(stride_val, positive)`. -/
def new (m : Nat) (positive : Bool) : Stride :=
  if positive then .pos m else .neg m

/-- `Stride::offset(index, size)`: `index*magnitude` for positive strides,
`(size-1-index)*magnitude` for negative strides. -/
def offsetOf (s : Stride) (index size : Nat) : Nat :=
  match s with
  | .pos m => index * m
  | .neg m => (size - 1 - index) * m

/-- `impl Mul<usize> for Stride`: scale the magnitude, keep the direction. -/
def mul (s : Stride) (k : Nat) : Stride :=
  match s with
  | .pos m => .pos (m * k)
  | .neg m => .neg (m * k)

/-- `impl PartialEq for Stride`: same variant with equal magnitudes, and
additionally magnitude-0 strides are equal across directions. -/
def beq (a b : Stride) : Bool :=
  match a, b with
  | .pos l, .pos r => l == r
  | .neg l, .neg r => l == r
  | .pos 0, .neg 0 => true
  | .neg 0, .pos 0 => true
  | _, _ => false

/-- Direction toggle used by `Shape::flip`. -/
def toggle : Stride → Stride
  | .pos m => .neg m
  | .neg m => .pos m

end Stride

/-- Shape from src/core/shape.rs: dimension sizes, parallel strides, and a
base offset into the backing buffer. -/
structure Shape : Type where
  sizes : List Nat
  strides : List Stride
  offset : Nat
deriving DecidableEq, Repr

namespace Shape

/-- Stride derivation of `Shape::new` and `Shape::view`: scan dimensions
from last to first accumulating the running product of sizes, so dimension
`i` gets magnitude `(sizes.drop (i+1)).prod`, with the given direction. -/
def derivedStrides (positive : Bool) : List Nat → List Stride
  | [] => []
  | _ :: rest => Stride.new rest.prod positive :: derivedStrides positive rest

/-- `Shape::new(sizes, offset)`: canonical row-major positive strides. -/
def new (sizes : List Nat) (offset : Nat) : Shape :=
  { sizes := sizes, strides := derivedStrides true sizes, offset := offset }

/-- `Shape::numdims`. -/
def numdims (s : Shape) : Nat := s.sizes.length

/-- `Shape::numel`: product of the sizes. -/
def numel (s : Shape) : Nat := s.sizes.prod

/-- Loop body of `Shape::is_contiguous`: check
`strides[i] == strides[i+1] * sizes[i+1]` (with the `PartialEq` of
`Stride`) for every adjacent pair. -/
def contiguousCheck (s : Shape) : Bool :=
  (List.range (s.numdims - 1)).all fun i =>
    Stride.beq (s.strides.getD i (Stride.pos 0))
      ((s.strides.getD (i + 1) (Stride.pos 0)).mul (s.sizes.getD (i + 1) 0))

/-- `Shape::is_contiguous`. The loop bound `0..self.numdims() - 1` is
computed in `usize`: for a zero-dimensional shape it underflows and the
call panics (modelled as `none`); otherwise the adjacent-pair scan runs. -/
def is_contiguousRust (s : Shape) : Option Bool :=
  if s.numdims = 0 then none else some s.contiguousCheck

/-- `Shape::view(sizes)`: reinterpret under new sizes; fails when the
element count differs (`valid_reshape` panic) or the shape has no
dimensions (`strides.first()` expect); strides are derived as in `new`
with the first dimension's direction preserved. -/
def view (s : Shape) (sizes : List Nat) : Option Shape :=
  if s.numel ≠ sizes.prod then none
  else
    match s.strides.head? with
    | none => none
    | some st0 =>
      let positive := match st0 with | .pos _ => true | .neg _ => false
      some { sizes := sizes, strides := derivedStrides positive sizes,
             offset := s.offset }

/-- Filter of `Shape::squeeze`: drop every (size, stride) pair whose size
is 1. -/
def squeezeDims : List Nat → List Stride → List Nat × List Stride
  | sz :: szs, st :: sts =>
    let (rs, rt) := squeezeDims szs sts
    if sz ≠ 1 then (sz :: rs, st :: rt) else (rs, rt)
  | _, _ => ([], [])

/-- `Shape::squeeze`: if the total element count is 1, collapse to a single
size-1 dimension; otherwise drop all size-1 dimensions. -/
def squeeze (s : Shape) : Shape :=
  if s.sizes.prod = 1 then Shape.new [1] s.offset
  else
    let (sizes, strides) := squeezeDims s.sizes s.strides
    { sizes := sizes, strides := strides, offset := s.offset }

/-- Gather step of `Shape::permute`: `(self.sizes[*i], self.strides[*i])`
for each entry, `none` on an out-of-range index (Rust index panic). -/
def permutePairs (s : Shape) : List Nat → Option (List (Nat × Stride))
  | [] => some []
  | i :: rest =>
    match s.sizes.get? i, s.strides.get? i, permutePairs s rest with
    | some sz, some st, some tl => some ((sz, st) :: tl)
    | _, _, _ => none

/-- `Shape::permute(permutation)`: validates the length
(`matches_size`) and duplicate-freeness (`dimensions_occur_only_once`),
then reorders the (size, stride) pairs. -/
def permute (s : Shape) (permutation : List Nat) : Option Shape :=
  if permutation.length ≠ s.numdims then none
  else if ¬ permutation.Nodup then none
  else
    match permutePairs s permutation with
    | none => none
    | some pairs =>
      some { sizes := pairs.map Prod.fst, strides := pairs.map Prod.snd,
             offset := s.offset }

/-- Loop of `Shape::flip` (`iter().enumerate()`): toggle the direction of
every stride whose index is listed. -/
def flipStrides (flips : List Nat) : Nat → List Stride → List Stride
  | _, [] => []
  | i, st :: rest =>
    (if flips.contains i then st.toggle else st) :: flipStrides flips (i + 1) rest

/-- `Shape::flip(flips)`: validates duplicate-freeness, then inverts the
direction of each listed dimension's stride. -/
def flip (s : Shape) (flips : List Nat) : Option Shape :=
  if ¬ flips.Nodup then none
  else some { sizes := s.sizes, strides := flipStrides flips 0 s.strides,
              offset := s.offset }

/-- Zip-map of `Shape::expand`: equal sizes kept, size-1 dimensions adopt
the target with a fresh zero-magnitude positive stride, anything else
panics (`none`). -/
def expandDims : List Nat → List Stride → List Nat → Option (List Nat × List Stride)
  | sz :: szs, st :: sts, e :: es =>
    match expandDims szs sts es with
    | none => none
    | some (rs, rt) =>
      if e = sz then some (sz :: rs, st :: rt)
      else if sz = 1 then some (e :: rs, Stride.new 0 true :: rt)
      else none
  | _, _, _ => some ([], [])

/-- `Shape::expand(expansions)`: no-op when the target equals the current
sizes, otherwise validates the length and stretches size-1 dimensions. -/
def expand (s : Shape) (expansions : List Nat) : Option Shape :=
  if s.sizes = expansions then some s
  else if expansions.length ≠ s.numdims then none
  else
    match expandDims s.sizes s.strides expansions with
    | none => none
    | some (sizes, strides) =>
      some { sizes := sizes, strides := strides, offset := s.offset }

/-- Loop of `Shape::broadcast` on the already-reversed size lists
(`next_back`): equal sizes pass, a 1 adopts the other side, otherwise the
panic (`none`); a leftover suffix of either operand passes through. -/
def broadcastRev : List Nat → List Nat → Option (List Nat)
  | [], ys => some ys
  | x :: xs, [] =>
    match broadcastRev xs [] with
    | none => none
    | some r => some (x :: r)
  | x :: xs, y :: ys =>
    match broadcastRev xs ys with
    | none => none
    | some r =>
      if x = y then some (x :: r)
      else if x = 1 then some (y :: r)
      else if y = 1 then some (x :: r)
      else none

/-- `Shape::broadcast`: right-align the two size sequences and combine
them pairwise; the result is built back-to-front and reversed. -/
def broadcast (lhs rhs : List Nat) : Option (List Nat) :=
  match broadcastRev lhs.reverse rhs.reverse with
  | none => none
  | some r => some r.reverse

/-- Check of `Shape::valid_indices`: every index below its dimension's
size (the zip truncates like the Rust iterator). -/
def validIdxB (sizes indices : List Nat) : Bool :=
  (sizes.zip indices).all fun p => p.2 < p.1

/-- Offset sum of `Shape::element`: `Σ stride.offset(index, size)`. -/
def offsetSum : List Nat → List Stride → List Nat → Nat
  | sz :: szs, st :: sts, i :: is => st.offsetOf i sz + offsetSum szs sts is
  | _, _, _ => 0

/-- `Shape::element(indices)`: validates the index count (`matches_size`)
and each bound (`valid_indices`), then returns the linear offset. -/
def element (s : Shape) (indices : List Nat) : Option Nat :=
  if indices.length ≠ s.numdims then none
  else if ¬ validIdxB s.sizes indices then none
  else some (offsetSum s.sizes s.strides indices + s.offset)

/-- Check of `Shape::valid_ranges`: panics when the range list is longer
than the dimensions, when `start > end` with `end > 0`, or when either
bound exceeds the dimension's size. -/
def validRangesB (s : Shape) (ranges : List (Nat × Nat)) : Bool :=
  ranges.length ≤ s.numdims &&
    (List.range ranges.length).all fun d =>
      let r := ranges.getD d (0, 0)
      let size := s.sizes.getD d 0
      !(decide (r.1 > r.2) && decide (r.2 > 0)) && r.1 ≤ size && r.2 ≤ size

/-- Offset-accumulating loop of `Shape::slice`: `end == 0` means the full
size; positive dimensions advance the offset by `start*magnitude`,
negative ones retreat it by `(end-1)*magnitude` (checked `usize`
subtractions). Returns the new sizes and the final offset. -/
def sliceFold : List (Nat × Stride × (Nat × Nat)) → Nat → Option (List Nat × Nat)
  | [], o => some ([], o)
  | (size, st, (start, stop)) :: rest, o =>
    let e := if stop = 0 then size else stop
    let step : Option Nat :=
      match st with
      | .pos m => some (o + start * m)
      | .neg m =>
        match csub e 1 with
        | none => none
        | some e1 => csub o (e1 * m)
    match step with
    | none => none
    | some o2 =>
      match sliceFold rest o2 with
      | none => none
      | some (szs, oF) => some ((e - start) :: szs, oF)

/-- Triple zip feeding `sliceFold` (sizes, strides, padded ranges). -/
def zip3 : List Nat → List Stride → List (Nat × Nat) →
    List (Nat × Stride × (Nat × Nat))
  | sz :: szs, st :: sts, r :: rs => (sz, st, r) :: zip3 szs sts rs
  | _, _, _ => []

/-- `Shape::slice(indices)`: validates the ranges, pads missing trailing
ranges with the `(0, 0)` full-extent sentinel, starts the offset at the
base offset for a positive-direction first stride and at
`numel - 1 - offset` for a negative-direction one, then walks every
dimension. -/
def slice (s : Shape) (ranges : List (Nat × Nat)) : Option Shape :=
  if ¬ validRangesB s ranges then none
  else
    let padded := ranges ++ List.replicate (s.numdims - ranges.length) (0, 0)
    match s.strides.head? with
    | none => none
    | some st0 =>
      let o0 : Option Nat :=
        match st0 with
        | .pos _ => some s.offset
        | .neg _ =>
          match csub s.numel 1 with
          | none => none
          | some n1 => csub n1 s.offset
      match o0 with
      | none => none
      | some o =>
        match sliceFold (zip3 s.sizes s.strides padded) o with
        | none => none
        | some (sizes, oF) =>
          some { sizes := sizes, strides := s.strides, offset := oF }

/-- Per-dimension loop of `Shape::single_slice`: a pinned index collapses
the dimension to size 1 and folds `index*magnitude` into the offset
(advancing for positive strides, retreating for negative ones); an absent
index keeps the full extent. -/
def singleSliceFold : List (Nat × Stride × Option Nat) → Nat →
    Option (List Nat × Nat)
  | [], o => some ([], o)
  | (size, st, oi) :: rest, o =>
    match oi with
    | some i =>
      let step : Option Nat :=
        match st with
        | .pos m => some (o + i * m)
        | .neg m => csub o (i * m)
      match step with
      | none => none
      | some o2 =>
        match singleSliceFold rest o2 with
        | none => none
        | some (szs, oF) => some (1 :: szs, oF)
    | none =>
      match singleSliceFold rest o with
      | none => none
      | some (szs, oF) => some (size :: szs, oF)

/-- Triple zip feeding `singleSliceFold` (truncating like the Rust
iterator zip). -/
def zip3o : List Nat → List Stride → List (Option Nat) →
    List (Nat × Stride × Option Nat)
  | sz :: szs, st :: sts, r :: rs => (sz, st, r) :: zip3o szs sts rs
  | _, _, _ => []

/-- `Shape::single_slice(indices)`: same direction-dependent starting
offset as `slice`, then pins the given dimensions. -/
def single_slice (s : Shape) (indices : List (Option Nat)) : Option Shape :=
  match s.strides.head? with
  | none => none
  | some st0 =>
    let o0 : Option Nat :=
      match st0 with
      | .pos _ => some s.offset
      | .neg _ =>
        match csub s.numel 1 with
        | none => none
        | some n1 => csub n1 s.offset
    match o0 with
    | none => none
    | some o =>
      match singleSliceFold (zip3o s.sizes s.strides indices) o with
      | none => none
      | some (sizes, oF) =>
        some { sizes := sizes, strides := s.strides, offset := oF }

/-- List equality with the `PartialEq` of `Stride` (`Vec<Stride>` eq). -/
def strideListBeq : List Stride → List Stride → Bool
  | [], [] => true
  | a :: as_, b :: bs => a.beq b && strideListBeq as_ bs
  | _, _ => false

/-- `impl PartialEq for Shape`: compares sizes and strides, never the
base offset. -/
def beq (a b : Shape) : Bool :=
  a.sizes == b.sizes && strideListBeq a.strides b.strides

/-- Modelled from the spec: `Shape::unsqueeze(n)` is not under src/ (only
its caller in tensor.rs is); spec 4.3: pad with leading size-1 dimensions
until `ndims == n`, new leading strides scaled from the first existing
stride (spec 4.1). Fails when the shape already has more dimensions. -/
def unsqueeze (s : Shape) (n : Nat) : Option Shape :=
  if s.numdims ≤ n then
    let lead :=
      match s.strides.head? with
      | some st => st.mul (s.sizes.headD 1)
      | none => Stride.pos 1
    some { sizes := List.replicate (n - s.numdims) 1 ++ s.sizes,
           strides := List.replicate (n - s.numdims) lead ++ s.strides,
           offset := s.offset }
  else none

/-- Modelled from the spec: `Shape::transpose(d1, d2)` is not under src/;
spec 4.3: convenience = `permute` swapping the two positions. -/
def transpose (s : Shape) (d1 d2 : Nat) : Option Shape :=
  s.permute ((List.range s.numdims).map fun i =>
    if i = d1 then d2 else if i = d2 then d1 else i)

/-- Modelled from the spec: `Shape::valid_dimensions` is not under src/
(only its caller `Tensor::reduce` is); spec 4.9: validates that the
reduction dimensions are in range. -/
def valid_dimensions (s : Shape) (dimensions : List Nat) : Bool :=
  dimensions.all fun d => d < s.numdims

end Shape

/-- Backing buffer: allocation identifier plus the elements of the
`Arc<Vec<T>>`. Cloning the `Arc` copies this value unchanged; a fresh
`Arc::new` allocation receives the next unused identifier. -/
structure Buf (α : Type) : Type where
  id : Nat
  elems : List α
deriving DecidableEq, Repr

/-- Tensor from src/core/tensor.rs: shared backing buffer plus one Shape. -/
structure Tensor (α : Type) : Type where
  buf : Buf α
  shape : Shape
deriving DecidableEq, Repr

/-- Modelled from the spec: the `Indexer` of src/core/strider.rs is not
under src/ (only its callers in tensor.rs are); spec 4.8/9: enumerate the
full Cartesian product of the per-dimension ranges `0..size[d]` in
row-major order, the most-significant dimension varying slowest. -/
def Indexer : List Nat → List (List Nat)
  | [] => [[]]
  | s :: rest => (List.range s).flatMap fun i => (Indexer rest).map (i :: ·)

/-- Inner loop of the spec-modelled `Slicer` (src/core/slicer.rs is not
under src/): walk the dimensions left to right; a reduced dimension
contributes `none` (kept at full extent), a non-reduced one is pinned to
each of its coordinates in row-major order. -/
def SlicerAux (dims : List Nat) : Nat → List Nat → List (List (Option Nat))
  | _, [] => [[]]
  | d, s :: rest =>
    if dims.contains d then (SlicerAux dims (d + 1) rest).map (none :: ·)
    else (List.range s).flatMap fun i =>
      (SlicerAux dims (d + 1) rest).map (some i :: ·)

/-- Modelled from the spec: `Slicer::new(sizes, dimensions, keepdims)`
iterates the non-reduced coordinate space (spec 4.9), producing for each
combination the per-dimension optional indices fed to `single_slice`; the
spec does not give `keepdims` any role in the iteration itself. -/
def Slicer (sizes : List Nat) (dims : List Nat) (_keepdims : Bool) :
    List (List (Option Nat)) :=
  SlicerAux dims 0 sizes

namespace Tensor

variable {α β : Type}

/-- `Tensor::init(data, sizes)`: wrap a freshly allocated buffer (id `n`)
with the canonical shape of the sizes; performs no validation. -/
def init (n : Nat) (data : List α) (sizes : List Nat) : Tensor α :=
  { buf := { id := n, elems := data }, shape := Shape.new sizes 0 }

/-- `Tensor::new(data, sizes)`: fails when the data length does not match
the size product, else `init`. -/
def new (n : Nat) (data : List α) (sizes : List Nat) : Option (Tensor α) :=
  if data.length ≠ sizes.prod then none else some (init n data sizes)

/-- Tail loop of `Tensor::arange` (`successors`): keep adding `step` while
the next value stays below `end`. The fuel argument makes the recursion
structural; for `step ≥ 1` the fuel `(end - start).toNat` is enough, which
is how `arange` instantiates it. -/
def arangeFrom (stop step : Int) : Nat → Int → List Int
  | 0, _ => []
  | fuel + 1, prev =>
    let current := prev + step
    if current < stop then current :: arangeFrom stop step fuel current
    else []

/-- `Tensor::arange(start, end, step)` (element type modelled as `Int`):
`successors(Some(start), ...)` always yields `start` first, then keeps
adding `step` while the value stays strictly below `end`. -/
def arange (start stop step : Int) : List Int :=
  start :: arangeFrom stop step (stop - start).toNat start

/-- The sizes of a tensor (`Tensor::sizes`). -/
def sizes (t : Tensor α) : List Nat := t.shape.sizes

/-- The strides of a tensor (`Tensor::strides`). -/
def strides (t : Tensor α) : List Stride := t.shape.strides

/-- The base offset of a tensor (`Tensor::offset`). -/
def offset (t : Tensor α) : Nat := t.shape.offset

/-- `Tensor::numel`. -/
def numel (t : Tensor α) : Nat := t.shape.numel

/-- `Tensor::is_contiguous` (same `usize` underflow panic on
zero-dimensional shapes as `Shape::is_contiguous`). -/
def is_contiguousRust (t : Tensor α) : Option Bool :=
  t.shape.is_contiguousRust

/-- `Tensor::data_contiguous`: the backing sub-range
`[offset, offset + numel)`; `none` models the Rust slice panic when the
range exceeds the buffer. -/
def data_contiguous (t : Tensor α) : Option (List α) :=
  if t.offset + t.numel ≤ t.buf.elems.length then
    some ((t.buf.elems.drop t.offset).take t.numel)
  else none

/-- `Tensor::data_non_contiguous`: read every logical position of the
row-major index enumeration through `Shape::element`; a failed element
lookup or buffer read is a panic (`none`). -/
def data_non_contiguous (t : Tensor α) : Option (List α) :=
  collectSome ((Indexer t.sizes).map fun idx =>
    match t.shape.element idx with
    | none => none
    | some off => t.buf.elems.get? off)

/-- `Tensor::data`: dispatch on `is_contiguous` between the fast
sub-range path and the slow enumeration path. -/
def data (t : Tensor α) : Option (List α) :=
  match t.is_contiguousRust with
  | none => none
  | some true => t.data_contiguous
  | some false => t.data_non_contiguous

/-- `Tensor::index(indices)`: scalar read through `Shape::element`. -/
def index (t : Tensor α) (indices : List Nat) : Option α :=
  match t.shape.element indices with
  | none => none
  | some off => t.buf.elems.get? off

/-- `Tensor::slice(ranges)`: share the buffer, slice the shape. -/
def slice (t : Tensor α) (ranges : List (Nat × Nat)) : Option (Tensor α) :=
  match t.shape.slice ranges with
  | none => none
  | some sh => some { buf := t.buf, shape := sh }

/-- `Tensor::slicer(indices)`: share the buffer, `single_slice` the
shape. -/
def slicer (t : Tensor α) (indices : List (Option Nat)) : Option (Tensor α) :=
  match t.shape.single_slice indices with
  | none => none
  | some sh => some { buf := t.buf, shape := sh }

/-- `Tensor::view(sizes)`: share the buffer, view the shape. -/
def view (t : Tensor α) (sizes : List Nat) : Option (Tensor α) :=
  match t.shape.view sizes with
  | none => none
  | some sh => some { buf := t.buf, shape := sh }

/-- `Tensor::reshape(sizes)`: always materializes
(`Arc::new(self.data_non_contiguous())`, fresh id `n`) and installs the
canonical shape of the requested sizes. -/
def reshape (t : Tensor α) (sizes : List Nat) (n : Nat) : Option (Tensor α) :=
  match t.data_non_contiguous with
  | none => none
  | some d => some { buf := { id := n, elems := d }, shape := Shape.new sizes 0 }

/-- `Tensor::to_contiguous`: materialize through the slow path into a
fresh buffer (id `n`) with the canonical shape of the current sizes. -/
def to_contiguous (t : Tensor α) (n : Nat) : Option (Tensor α) :=
  match t.data_non_contiguous with
  | none => none
  | some d => some { buf := { id := n, elems := d }, shape := Shape.new t.sizes 0 }

/-- `Tensor::squeeze`: share the buffer, squeeze the shape. -/
def squeeze (t : Tensor α) : Tensor α :=
  { buf := t.buf, shape := t.shape.squeeze }

/-- `Tensor::unsqueeze(expansion)`: share the buffer, unsqueeze the
shape. -/
def unsqueeze (t : Tensor α) (expansion : Nat) : Option (Tensor α) :=
  match t.shape.unsqueeze expansion with
  | none => none
  | some sh => some { buf := t.buf, shape := sh }

/-- `Tensor::permute(permutation)`: share the buffer, permute the
shape. -/
def permute (t : Tensor α) (permutation : List Nat) : Option (Tensor α) :=
  match t.shape.permute permutation with
  | none => none
  | some sh => some { buf := t.buf, shape := sh }

/-- `Tensor::transpose(d1, d2)`: share the buffer, transpose the shape. -/
def transpose (t : Tensor α) (d1 d2 : Nat) : Option (Tensor α) :=
  match t.shape.transpose d1 d2 with
  | none => none
  | some sh => some { buf := t.buf, shape := sh }

/-- `Tensor::expand(expansions)`: share the buffer, expand the shape. -/
def expand (t : Tensor α) (expansions : List Nat) : Option (Tensor α) :=
  match t.shape.expand expansions with
  | none => none
  | some sh => some { buf := t.buf, shape := sh }

/-- `Tensor::flip(flips)`: share the buffer, flip the shape. -/
def flip (t : Tensor α) (flips : List Nat) : Option (Tensor α) :=
  match t.shape.flip flips with
  | none => none
  | some sh => some { buf := t.buf, shape := sh }

/-- `Tensor::flip_all`: flip every dimension. -/
def flip_all (t : Tensor α) : Option (Tensor α) :=
  t.flip (List.range t.shape.numdims)

/-- `Tensor::index_map(f, index)`: copy-on-write — materialize the logical
data, overwrite position `Shape::element(index)` of that copy with `f` of
its old value (a Rust index panic when it falls outside the copy), and
wrap the result in a fresh buffer (id `n`) under the receiver's shape. -/
def index_map (t : Tensor α) (f : α → α) (idx : List Nat) (n : Nat) :
    Option (Tensor α) :=
  match t.data with
  | none => none
  | some d =>
    match t.shape.element idx with
    | none => none
    | some off =>
      match d.get? off with
      | none => none
      | some old =>
        some { buf := { id := n, elems := d.set off (f old) }, shape := t.shape }

/-- `Tensor::reduce(dimensions, f, keepdims)`: validate the dimensions,
apply `f` to the `single_slice` sub-view of every non-reduced coordinate
combination, and install the output sizes (1 versus the original size
according to `keepdims` and membership in `dimensions`) via `init` with a
fresh buffer id `n`. -/
def reduce {R : Type} (t : Tensor α) (dimensions : List Nat)
    (f : Tensor α → Option R) (keepdims : Bool) (n : Nat) : Option (Tensor R) :=
  if ¬ t.shape.valid_dimensions dimensions then none
  else
    match collectSome ((Slicer t.sizes dimensions keepdims).map fun idx =>
        match t.slicer idx with
        | none => none
        | some sub => f sub) with
    | none => none
    | some d =>
      let outSizes := (List.range t.sizes.length).map fun d =>
        let size := t.sizes.getD d 0
        match keepdims, dimensions.contains d with
        | true, true => 1
        | true, false => size
        | false, true => size
        | false, false => 1
      some (init n d outSizes)

/-- `impl PartialEq for Tensor`: `self.data() == rhs.data() &&
self.shape == rhs.shape`; both data materializations happen first (a
panic in either is `none`), then the shape comparison ignores offsets. -/
def tensorBeq [DecidableEq α] (a b : Tensor α) : Option Bool :=
  match a.data, b.data with
  | some da, some db => some (da == db && a.shape.beq b.shape)
  | _, _ => none

end Tensor

/-! Specification-side definitions used to state the claims. -/

/-- Row-major rank of a logical index: positional-number-system value of
the index digits with the suffix products of the sizes as weights. -/
def rank : List Nat → List Nat → Nat
  | _ :: szs, i :: is => i * szs.prod + rank szs is
  | _, _ => 0

/-- Effective end bound of a slice range: `end == 0` means the full
size. -/
def rangeEnd (size stop : Nat) : Nat := if stop = 0 then size else stop

/-- Per-dimension base-offset contribution of `Shape::slice` as stated by
the spec: advance by `start*magnitude` on a positive-direction dimension,
retreat by `(end-1)*magnitude` on a negative-direction one. -/
def sliceContribution : Nat × Stride × (Nat × Nat) → Int
  | (_, .pos m, (start, _)) => ((start * m : Nat) : Int)
  | (size, .neg m, (_, stop)) => -(((rangeEnd size stop - 1) * m : Nat) : Int)

/-- Initial offset of `Shape::slice`: the receiver's offset for a
positive-direction first stride, `numel - 1 - offset` for a
negative-direction one. -/
def sliceInit (s : Shape) : Int :=
  match s.strides.head? with
  | some (.pos _) => (s.offset : Int)
  | some (.neg _) => (s.numel : Int) - 1 - (s.offset : Int)
  | none => 0

/-- Pairwise broadcast compatibility of two right-aligned (reversed) size
lists: aligned sizes are equal or one of them is 1. -/
def bcCompat (xs ys : List Nat) : Prop :=
  ∀ i, i < min xs.length ys.length →
    (xs.getD i 0 = ys.getD i 0 ∨ xs.getD i 0 = 1 ∨ ys.getD i 0 = 1)

/-- Broadcast result size at right-aligned position `i`: equal sizes pass
through, a 1 adopts the other side, and an unpaired position of the longer
operand passes through. -/
def bcCombine (xs ys : List Nat) (i : Nat) : Nat :=
  if i < xs.length ∧ i < ys.length then
    (if xs.getD i 0 = ys.getD i 0 then xs.getD i 0
     else if xs.getD i 0 = 1 then ys.getD i 0 else xs.getD i 0)
  else if i < xs.length then xs.getD i 0 else ys.getD i 0

/-! Proofs. -/

/-- C8: `is_contiguous()` is the adjacent-pair row-major layout test — for
every shape with at least one dimension it returns true iff
`strides[i] == strides[i+1] * sizes[i+1]` (with `Stride`'s equality) for
every adjacent pair; but on a shape with zero dimensions the loop bound
`0..numdims() - 1` underflows in `usize` and the call panics instead of
returning true, contradicting the claim's vacuous-truth clause. -/
theorem C8_is_contiguous_characterization :
    (∀ s : Shape, 0 < s.numdims →
      (s.is_contiguousRust = some true ↔
        ∀ i, i + 1 < s.numdims →
          Stride.beq (s.strides.getD i (Stride.pos 0))
            ((s.strides.getD (i + 1) (Stride.pos 0)).mul
              (s.sizes.getD (i + 1) 0)) = true)) ∧
    Shape.is_contiguousRust { sizes := [], strides := [], offset := 0 } = none := by
  constructor
  · intro s hs
    unfold Shape.is_contiguousRust
    rw [if_neg (by omega)]
    rw [Option.some_inj]
    constructor
    · intro h i hi
      rw [Shape.contiguousCheck, List.all_eq_true] at h
      exact h i (List.mem_range.mpr (by omega))
    · intro h
      rw [Shape.contiguousCheck, List.all_eq_true]
      intro i hi
      exact h i (by have := List.mem_range.mp hi; omega)
  · rfl

/-- Witness for C8 at the concrete shape of sizes `[2,3]`. -/
theorem C8_witness :
    0 < (Shape.new [2, 3] 0).numdims ∧
      ((Shape.new [2, 3] 0).is_contiguousRust = some true ↔
        ∀ i, i + 1 < (Shape.new [2, 3] 0).numdims →
          Stride.beq ((Shape.new [2, 3] 0).strides.getD i (Stride.pos 0))
            (((Shape.new [2, 3] 0).strides.getD (i + 1) (Stride.pos 0)).mul
              ((Shape.new [2, 3] 0).sizes.getD (i + 1) 0)) = true) :=
  ⟨by decide, C8_is_contiguous_characterization.1 _ (by decide)⟩

/-- C10: tensor equality compares the materialized logical data and the
shapes' sizes and strides, never the base offsets: tensors with equal data
sequences, sizes and (PartialEq-) equal strides compare equal even with
different offsets. -/
theorem C10_eq_ignores_offset {α : Type} [DecidableEq α] :
    ∀ (t1 t2 : Tensor α) (d : List α),
      t1.data = some d → t2.data = some d →
      t1.sizes = t2.sizes →
      Shape.strideListBeq t1.strides t2.strides = true →
      t1.offset ≠ t2.offset →
      t1.tensorBeq t2 = some true := by
  intro t1 t2 d h1 h2 hsz hst _hoff
  unfold Tensor.tensorBeq
  rw [h1, h2]
  have hbeq : t1.shape.beq t2.shape = true := by
    unfold Shape.beq
    unfold Tensor.sizes at hsz
    unfold Tensor.strides at hst
    rw [hst, Bool.and_true]
    exact beq_iff_eq.mpr hsz
  simp [hbeq]

/-- Witness for C10: two concrete tensors with equal logical data, sizes
and strides but base offsets 1 and 0 compare equal. -/
theorem C10_witness :
    Tensor.data (α := Int) ⟨⟨0, [9, 1, 2]⟩, ⟨[2], [Stride.pos 1], 1⟩⟩ = some [1, 2] ∧
    Tensor.data (α := Int) ⟨⟨1, [1, 2]⟩, ⟨[2], [Stride.pos 1], 0⟩⟩ = some [1, 2] ∧
    Tensor.sizes (α := Int) ⟨⟨0, [9, 1, 2]⟩, ⟨[2], [Stride.pos 1], 1⟩⟩ =
      Tensor.sizes (α := Int) ⟨⟨1, [1, 2]⟩, ⟨[2], [Stride.pos 1], 0⟩⟩ ∧
    Shape.strideListBeq [Stride.pos 1] [Stride.pos 1] = true ∧
    Tensor.offset (α := Int) ⟨⟨0, [9, 1, 2]⟩, ⟨[2], [Stride.pos 1], 1⟩⟩ ≠
      Tensor.offset (α := Int) ⟨⟨1, [1, 2]⟩, ⟨[2], [Stride.pos 1], 0⟩⟩ ∧
    Tensor.tensorBeq (α := Int) ⟨⟨0, [9, 1, 2]⟩, ⟨[2], [Stride.pos 1], 1⟩⟩
      ⟨⟨1, [1, 2]⟩, ⟨[2], [Stride.pos 1], 0⟩⟩ = some true :=
  ⟨by decide, by decide, by decide, by decide, by decide,
    C10_eq_ignores_offset _ _ [(1 : Int), 2] (by decide) (by decide) (by decide)
      (by decide) (by decide)⟩

/-- C6: every zero-copy transform (view, slice, permute, flip, expand,
squeeze, transpose, unsqueeze) returns a tensor holding the very same
backing buffer, while reshape and to_contiguous always wrap a freshly
allocated buffer whose identity differs from the receiver's. -/
theorem C6_buffer_sharing {α : Type} :
    (∀ (t : Tensor α) (s : List Nat) (r : Tensor α),
      t.view s = some r → r.buf = t.buf) ∧
    (∀ (t : Tensor α) (rs : List (Nat × Nat)) (r : Tensor α),
      t.slice rs = some r → r.buf = t.buf) ∧
    (∀ (t : Tensor α) (p : List Nat) (r : Tensor α),
      t.permute p = some r → r.buf = t.buf) ∧
    (∀ (t : Tensor α) (fl : List Nat) (r : Tensor α),
      t.flip fl = some r → r.buf = t.buf) ∧
    (∀ (t : Tensor α) (e : List Nat) (r : Tensor α),
      t.expand e = some r → r.buf = t.buf) ∧
    (∀ t : Tensor α, t.squeeze.buf = t.buf) ∧
    (∀ (t : Tensor α) (d1 d2 : Nat) (r : Tensor α),
      t.transpose d1 d2 = some r → r.buf = t.buf) ∧
    (∀ (t : Tensor α) (e : Nat) (r : Tensor α),
      t.unsqueeze e = some r → r.buf = t.buf) ∧
    (∀ (t : Tensor α) (s : List Nat) (n : Nat) (r : Tensor α),
      t.buf.id < n → t.reshape s n = some r → r.buf.id ≠ t.buf.id) ∧
    (∀ (t : Tensor α) (n : Nat) (r : Tensor α),
      t.buf.id < n → t.to_contiguous n = some r → r.buf.id ≠ t.buf.id) := by
  refine ⟨?_, ?_, ?_, ?_, ?_, ?_, ?_, ?_, ?_, ?_⟩
  · intro t s r h
    unfold Tensor.view at h
    cases hm : t.shape.view s <;> rw [hm] at h
    · exact absurd h (by simp)
    · cases h; rfl
  · intro t rs r h
    unfold Tensor.slice at h
    cases hm : t.shape.slice rs <;> rw [hm] at h
    · exact absurd h (by simp)
    · cases h; rfl
  · intro t p r h
    unfold Tensor.permute at h
    cases hm : t.shape.permute p <;> rw [hm] at h
    · exact absurd h (by simp)
    · cases h; rfl
  · intro t fl r h
    unfold Tensor.flip at h
    cases hm : t.shape.flip fl <;> rw [hm] at h
    · exact absurd h (by simp)
    · cases h; rfl
  · intro t e r h
    unfold Tensor.expand at h
    cases hm : t.shape.expand e <;> rw [hm] at h
    · exact absurd h (by simp)
    · cases h; rfl
  · intro t; rfl
  · intro t d1 d2 r h
    unfold Tensor.transpose at h
    cases hm : t.shape.transpose d1 d2 <;> rw [hm] at h
    · exact absurd h (by simp)
    · cases h; rfl
  · intro t e r h
    unfold Tensor.unsqueeze at h
    cases hm : t.shape.unsqueeze e <;> rw [hm] at h
    · exact absurd h (by simp)
    · cases h; rfl
  · intro t s n r hlt h
    unfold Tensor.reshape at h
    cases hm : t.data_non_contiguous <;> rw [hm] at h
    · exact absurd h (by simp)
    · cases h; exact fun hc => absurd hc (by simp; omega)
  · intro t n r hlt h
    unfold Tensor.to_contiguous at h
    cases hm : t.data_non_contiguous <;> rw [hm] at h
    · exact absurd h (by simp)
    · cases h; exact fun hc => absurd hc (by simp; omega)

/-- Witness for C6 at a concrete 2×2 tensor. -/
theorem C6_witness :
    (Tensor.buf (α := Int) ⟨⟨0, [1, 2, 3, 4]⟩, ⟨[4], [Stride.pos 1], 0⟩⟩ =
      Tensor.buf (α := Int) ⟨⟨0, [1, 2, 3, 4]⟩, Shape.new [2, 2] 0⟩) ∧
    (Tensor.buf (α := Int) ⟨⟨0, [1, 2, 3, 4]⟩, ⟨[1, 2], [Stride.pos 2, Stride.pos 1], 0⟩⟩ =
      Tensor.buf (α := Int) ⟨⟨0, [1, 2, 3, 4]⟩, Shape.new [2, 2] 0⟩) ∧
    (Tensor.buf (α := Int) ⟨⟨0, [1, 2, 3, 4]⟩, ⟨[2, 2], [Stride.pos 1, Stride.pos 2], 0⟩⟩ =
      Tensor.buf (α := Int) ⟨⟨0, [1, 2, 3, 4]⟩, Shape.new [2, 2] 0⟩) ∧
    (Tensor.buf (α := Int) ⟨⟨0, [1, 2, 3, 4]⟩, ⟨[2, 2], [Stride.neg 2, Stride.pos 1], 0⟩⟩ =
      Tensor.buf (α := Int) ⟨⟨0, [1, 2, 3, 4]⟩, Shape.new [2, 2] 0⟩) ∧
    (Tensor.buf (α := Int) ⟨⟨0, [1, 2, 3, 4]⟩, Shape.new [2, 2] 0⟩ =
      Tensor.buf (α := Int) ⟨⟨0, [1, 2, 3, 4]⟩, Shape.new [2, 2] 0⟩) ∧
    (Tensor.squeeze (α := Int) ⟨⟨0, [1, 2, 3, 4]⟩, Shape.new [2, 2] 0⟩).buf =
      Tensor.buf (α := Int) ⟨⟨0, [1, 2, 3, 4]⟩, Shape.new [2, 2] 0⟩ ∧
    (Tensor.buf (α := Int) ⟨⟨5, [1, 2, 3, 4]⟩, Shape.new [4] 0⟩).id ≠
      (Tensor.buf (α := Int) ⟨⟨0, [1, 2, 3, 4]⟩, Shape.new [2, 2] 0⟩).id ∧
    (Tensor.buf (α := Int) ⟨⟨6, [1, 2, 3, 4]⟩, Shape.new [2, 2] 0⟩).id ≠
      (Tensor.buf (α := Int) ⟨⟨0, [1, 2, 3, 4]⟩, Shape.new [2, 2] 0⟩).id := by
  refine ⟨?_, ?_, ?_, ?_, ?_, ?_, ?_, ?_⟩
  · exact C6_buffer_sharing.1 ⟨⟨0, [1, 2, 3, 4]⟩, Shape.new [2, 2] 0⟩ [4] _ (by decide)
  · exact C6_buffer_sharing.2.1 ⟨⟨0, [1, 2, 3, 4]⟩, Shape.new [2, 2] 0⟩ [(0, 1)] _ (by decide)
  · exact C6_buffer_sharing.2.2.1 ⟨⟨0, [1, 2, 3, 4]⟩, Shape.new [2, 2] 0⟩ [1, 0] _ (by decide)
  · exact C6_buffer_sharing.2.2.2.1 ⟨⟨0, [1, 2, 3, 4]⟩, Shape.new [2, 2] 0⟩ [0] _ (by decide)
  · exact C6_buffer_sharing.2.2.2.2.1 ⟨⟨0, [1, 2, 3, 4]⟩, Shape.new [2, 2] 0⟩ [2, 2] _ (by decide)
  · exact C6_buffer_sharing.2.2.2.2.2.1 ⟨⟨0, [1, 2, 3, 4]⟩, Shape.new [2, 2] 0⟩
  · exact C6_buffer_sharing.2.2.2.2.2.2.2.2.1 ⟨⟨0, [1, 2, 3, 4]⟩, Shape.new [2, 2] 0⟩ [4] 5 _
      (by decide) (by decide)
  · exact C6_buffer_sharing.2.2.2.2.2.2.2.2.2 ⟨⟨0, [1, 2, 3, 4]⟩, Shape.new [2, 2] 0⟩ 6 _
      (by decide) (by decide)

/-- C1 (amended): `reduce` never drops a dimension — the output has the
same rank as the receiver, and each output size follows the
keepdims/membership table of the code: with `keepdims = true` a reduced
dimension becomes 1 and a non-reduced one keeps its size, while with
`keepdims = false` a reduced dimension keeps its size and a non-reduced
one becomes 1. -/
theorem C1_reduce_sizes {α R : Type} :
    ∀ (t : Tensor α) (dims : List Nat) (f : Tensor α → Option R) (kd : Bool)
      (n : Nat) (r : Tensor R),
      t.reduce dims f kd n = some r →
      r.sizes.length = t.sizes.length ∧
      ∀ d, d < t.sizes.length →
        r.sizes.getD d 0 =
          if d ∈ dims then (if kd then 1 else t.sizes.getD d 0)
          else (if kd then t.sizes.getD d 0 else 1) := by
  intro t dims f kd n r h
  unfold Tensor.reduce at h
  split at h
  · exact absurd h (by simp)
  · cases hm : collectSome ((Slicer t.sizes dims kd).map fun idx =>
        match t.slicer idx with
        | none => none
        | some sub => f sub) <;> rw [hm] at h
    · exact absurd h (by simp)
    · cases h
      refine ⟨by simp [Tensor.sizes, Tensor.init, Shape.new], ?_⟩
      intro d hd
      simp only [Tensor.sizes, Tensor.init, Shape.new]
      simp only [Tensor.sizes] at hd
      rw [List.getD_eq_getElem?_getD, List.getElem?_map, List.getElem?_range hd]
      simp only [Option.map_some', Option.getD_some]
      by_cases hmem : d ∈ dims
      · have hc : dims.contains d = true := List.elem_iff.mpr hmem
        rw [hc, if_pos hmem]
        cases kd <;> rfl
      · have hc : dims.contains d = false := by
          rw [← Bool.not_eq_true]
          exact fun hcon => hmem (List.elem_iff.mp hcon)
        rw [hc, if_neg hmem]
        cases kd <;> rfl

/-- Witness for C1 on a `[2,3,4]` tensor reduced over dimension 1 with
`keepdims = false`. -/
theorem C1_witness :
    Tensor.reduce (α := Int) ⟨⟨0, List.replicate 24 0⟩, Shape.new [2, 3, 4] 0⟩ [1]
        (fun _ => some (0 : Int)) false 7 =
      some ⟨⟨7, List.replicate 8 0⟩, Shape.new [1, 3, 1] 0⟩ ∧
    (Tensor.sizes (α := Int) ⟨⟨7, List.replicate 8 0⟩, Shape.new [1, 3, 1] 0⟩).length =
      (Tensor.sizes (α := Int) ⟨⟨0, List.replicate 24 0⟩, Shape.new [2, 3, 4] 0⟩).length ∧
    ∀ d, d < (Tensor.sizes (α := Int) ⟨⟨0, List.replicate 24 0⟩, Shape.new [2, 3, 4] 0⟩).length →
      (Tensor.sizes (α := Int) ⟨⟨7, List.replicate 8 0⟩, Shape.new [1, 3, 1] 0⟩).getD d 0 =
        if d ∈ [1] then
          (if false then 1
           else (Tensor.sizes (α := Int) ⟨⟨0, List.replicate 24 0⟩, Shape.new [2, 3, 4] 0⟩).getD d 0)
        else
          (if false then
            (Tensor.sizes (α := Int) ⟨⟨0, List.replicate 24 0⟩, Shape.new [2, 3, 4] 0⟩).getD d 0
           else 1) :=
  ⟨by decide,
    (C1_reduce_sizes ⟨⟨0, List.replicate 24 0⟩, Shape.new [2, 3, 4] 0⟩ [1]
      (fun _ => some (0 : Int)) false 7 _ (by decide)).1,
    (C1_reduce_sizes ⟨⟨0, List.replicate 24 0⟩, Shape.new [2, 3, 4] 0⟩ [1]
      (fun _ => some (0 : Int)) false 7 _ (by decide)).2⟩

/-- Counterexample for C1 as stated: reducing a `[2,3,4]` tensor over
dimension 1 with `keepdims = false` yields sizes `[1,3,1]`, not the
claimed `[2,4]` — the reduced dimension is not dropped. -/
theorem C1_counterexample :
    (Tensor.reduce (α := Int) ⟨⟨0, List.replicate 24 0⟩, Shape.new [2, 3, 4] 0⟩ [1]
        (fun _ => some (0 : Int)) false 7).map Tensor.sizes = some [1, 3, 1] ∧
    (Tensor.reduce (α := Int) ⟨⟨0, List.replicate 24 0⟩, Shape.new [2, 3, 4] 0⟩ [1]
        (fun _ => some (0 : Int)) false 7).map Tensor.sizes ≠ some [2, 4] := by
  constructor
  · decide
  · decide

/-- Tail characterization of `arange`: with positive step and enough fuel,
the k-th produced element is `prev + (k+1)*step` as long as it stays below
the bound. -/
theorem arangeFrom_getElem? (stop step : Int) (hstep : 1 ≤ step) :
    ∀ (fuel : Nat) (prev : Int), (stop - prev).toNat ≤ fuel →
      ∀ k : Nat, (Tensor.arangeFrom stop step fuel prev)[k]? =
        if prev + ((k : Int) + 1) * step < stop
        then some (prev + ((k : Int) + 1) * step) else none := by
  intro fuel
  induction fuel with
  | zero =>
    intro prev hf k
    have hle : stop ≤ prev := by omega
    have hnonneg : (0 : Int) ≤ (k : Int) * step :=
      mul_nonneg (by positivity) (by omega)
    have heq : prev + ((k : Int) + 1) * step = prev + step + (k : Int) * step := by
      ring
    rw [heq, if_neg (by omega)]
    rfl
  | succ fuel ih =>
    intro prev hf k
    show (if prev + step < stop
        then (prev + step) :: Tensor.arangeFrom stop step fuel (prev + step)
        else [])[k]? = _
    by_cases hc : prev + step < stop
    · rw [if_pos hc]
      cases k with
      | zero =>
        have : prev + ((0 : Int) + 1) * step = prev + step := by ring
        simp only [Nat.cast_zero, this]
        rw [if_pos hc]
        exact List.getElem?_cons_zero
      | succ j =>
        rw [List.getElem?_cons_succ]
        rw [ih (prev + step) (by omega) j]
        have harith : prev + step + ((j : Int) + 1) * step =
            prev + ((((j : Nat) + 1 : Nat) : Int) + 1) * step := by
          push_cast
          ring
        rw [harith]
    · rw [if_neg hc]
      have hnonneg : (0 : Int) ≤ (k : Int) * step :=
        mul_nonneg (by positivity) (by omega)
      have heq : prev + ((k : Int) + 1) * step = prev + step + (k : Int) * step := by
        ring
      rw [heq, if_neg (by omega)]
      rfl

/-- C9 (amended): for `step ≥ 1`, `arange(start, end, step)` always begins
with `start` (the first element of the `successors` chain is produced
unconditionally, even when `start ≥ end`), and the k-th element for
`k ≥ 1` is `start + k*step` exactly while that value stays strictly below
`end`; in particular `start ≥ end` produces the one-element sequence
`[start]`, not the empty sequence. -/
theorem C9_arange_characterization :
    ∀ start stop step : Int, 1 ≤ step →
      (∀ k : Nat, (Tensor.arange start stop step)[k]? =
        if k = 0 then some start
        else if start + (k : Int) * step < stop
        then some (start + (k : Int) * step) else none) ∧
      (stop ≤ start → Tensor.arange start stop step = [start]) := by
  intro start stop step hstep
  constructor
  · intro k
    cases k with
    | zero =>
      rw [if_pos rfl]
      show (start :: Tensor.arangeFrom stop step (stop - start).toNat start)[0]? =
        some start
      exact List.getElem?_cons_zero
    | succ j =>
      rw [if_neg (Nat.succ_ne_zero j)]
      show (start :: Tensor.arangeFrom stop step (stop - start).toNat start)[j + 1]? = _
      rw [List.getElem?_cons_succ]
      rw [arangeFrom_getElem? stop step hstep _ start (le_refl _) j]
      have harith : start + ((j : Int) + 1) * step =
          start + ((((j : Nat) + 1 : Nat) : Int)) * step := by
        push_cast
        ring
      rw [harith]
  · intro hle
    show start :: Tensor.arangeFrom stop step (stop - start).toNat start = [start]
    have : (stop - start).toNat = 0 := Int.toNat_eq_zero.mpr (by omega)
    rw [this]
    rfl

/-- Witness for C9 at `arange(5, 3, 1)`. -/
theorem C9_witness :
    (1 : Int) ≤ 1 ∧
      ((∀ k : Nat, (Tensor.arange 5 3 1)[k]? =
        if k = 0 then some 5
        else if 5 + (k : Int) * 1 < 3 then some (5 + (k : Int) * 1) else none) ∧
      ((3 : Int) ≤ 5 → Tensor.arange 5 3 1 = [5])) :=
  ⟨by norm_num, by
    have h := C9_arange_characterization 5 3 1 (by norm_num)
    exact h⟩

/-- Counterexample for C9 as stated: `arange(5, 3, 1)` with
`start ≥ end` produces `[5]`, not the claimed empty sequence, and its
element 5 is not strictly less than the bound 3. -/
theorem C9_counterexample :
    Tensor.arange 5 3 1 = [5] ∧ Tensor.arange 5 3 1 ≠ [] ∧ ¬ ((5 : Int) < 3) := by
  refine ⟨rfl, by decide, by decide⟩

/-- An exhausted right-hand operand passes the rest of the left one
through unchanged. -/
theorem broadcastRev_nil_right : ∀ xs : List Nat, Shape.broadcastRev xs [] = some xs := by
  intro xs
  induction xs with
  | nil => rfl
  | cons x xs ih => simp [Shape.broadcastRev, ih]

/-- Compatibility of consed reversed size lists splits into the head pair
and the tails. -/
theorem bcCompat_cons {x y : Nat} {xs ys : List Nat} :
    bcCompat (x :: xs) (y :: ys) ↔
      (x = y ∨ x = 1 ∨ y = 1) ∧ bcCompat xs ys := by
  constructor
  · intro h
    refine ⟨?_, ?_⟩
    · have := h 0 (by simp [lt_min_iff])
      simpa using this
    · intro i hi
      have := h (i + 1) (by
        rw [lt_min_iff] at hi ⊢
        simp only [List.length_cons]
        omega)
      simpa using this
  · rintro ⟨h0, ht⟩ i hi
    cases i with
    | zero => simpa using h0
    | succ j =>
      have hj : j < min xs.length ys.length := by
        rw [lt_min_iff] at hi ⊢
        simp only [List.length_cons] at hi
        omega
      simpa using ht j hj

/-- `broadcastRev` succeeds exactly on compatible (reversed) size lists. -/
theorem broadcastRev_isSome_iff :
    ∀ xs ys : List Nat, (Shape.broadcastRev xs ys).isSome = true ↔ bcCompat xs ys := by
  intro xs
  induction xs with
  | nil =>
    intro ys
    constructor
    · intro _ i hi
      simp at hi
    · intro _
      rfl
  | cons x xs ih =>
    intro ys
    cases ys with
    | nil =>
      rw [broadcastRev_nil_right]
      constructor
      · intro _ i hi
        simp at hi
      · intro _
        rfl
    | cons y ys =>
      show (match Shape.broadcastRev xs ys with
        | none => none
        | some r =>
          if x = y then some (x :: r)
          else if x = 1 then some (y :: r)
          else if y = 1 then some (x :: r)
          else none).isSome = true ↔ _
      rw [bcCompat_cons]
      cases hm : Shape.broadcastRev xs ys with
      | none =>
        have hnc : ¬ bcCompat xs ys := by
          intro hc
          have := (ih ys).mpr hc
          rw [hm] at this
          exact absurd this (by simp)
        simp only [Option.isSome_none, Bool.false_eq_true, false_iff]
        rintro ⟨_, hc⟩
        exact hnc hc
      | some r =>
        have hc : bcCompat xs ys := (ih ys).mp (by rw [hm]; rfl)
        show (if x = y then some (x :: r)
          else if x = 1 then some (y :: r)
          else if y = 1 then some (x :: r)
          else none).isSome = true ↔ _
        by_cases h1 : x = y
        · rw [if_pos h1]
          simp [h1, hc]
        · rw [if_neg h1]
          by_cases h2 : x = 1
          · rw [if_pos h2]
            simp [h1, h2, hc]
          · rw [if_neg h2]
            by_cases h3 : y = 1
            · rw [if_pos h3]
              simp [h1, h2, h3, hc]
            · rw [if_neg h3]
              simp [h1, h2, h3]

/-- Step lemma for `bcCombine` on consed lists. -/
theorem bcCombine_cons {x y : Nat} {xs ys : List Nat} (i : Nat) :
    bcCombine (x :: xs) (y :: ys) (i + 1) = bcCombine xs ys i := by
  simp [bcCombine, Nat.succ_lt_succ_iff]

/-- Head value of `bcCombine`. -/
theorem bcCombine_zero {x y : Nat} {xs ys : List Nat} :
    bcCombine (x :: xs) (y :: ys) 0 = if x = y then x else if x = 1 then y else x := by
  simp [bcCombine]

/-- On success, `broadcastRev` has the right-aligned length and the
pairwise combination rule at every position. -/
theorem broadcastRev_some_spec :
    ∀ (xs ys r : List Nat), Shape.broadcastRev xs ys = some r →
      r.length = max xs.length ys.length ∧
      ∀ i, i < r.length → r.getD i 0 = bcCombine xs ys i := by
  intro xs
  induction xs with
  | nil =>
    intro ys r h
    cases h
    refine ⟨by simp, ?_⟩
    intro i hi
    simp [bcCombine]
  | cons x xs ih =>
    intro ys r h
    cases ys with
    | nil =>
      rw [broadcastRev_nil_right] at h
      cases h
      refine ⟨by simp, ?_⟩
      intro i hi
      simp only [List.length_cons] at hi
      simp [bcCombine, hi]
    | cons y ys =>
      revert h
      show (match Shape.broadcastRev xs ys with
        | none => none
        | some r =>
          if x = y then some (x :: r)
          else if x = 1 then some (y :: r)
          else if y = 1 then some (x :: r)
          else none) = some r → _
      cases hm : Shape.broadcastRev xs ys with
      | none => intro h; exact absurd h (by simp)
      | some r2 =>
        intro hmatch
        have h : (if x = y then some (x :: r2)
            else if x = 1 then some (y :: r2)
            else if y = 1 then some (x :: r2)
            else none) = some r := hmatch
        obtain ⟨hlen, hget⟩ := ih ys r2 hm
        have step : ∀ z : Nat, r = z :: r2 →
            (z = bcCombine (x :: xs) (y :: ys) 0) →
            r.length = max (x :: xs).length (y :: ys).length ∧
            ∀ i, i < r.length → r.getD i 0 = bcCombine (x :: xs) (y :: ys) i := by
          intro z hr hz
          subst hr
          refine ⟨by simp [hlen]; omega, ?_⟩
          intro i hi
          cases i with
          | zero => simpa using hz
          | succ j =>
            rw [bcCombine_cons j]
            simp only [List.getD_cons_succ]
            exact hget j (by simpa using hi)
        by_cases h1 : x = y
        · rw [if_pos h1] at h
          cases h
          exact step x rfl (by rw [bcCombine_zero, if_pos h1])
        · rw [if_neg h1] at h
          by_cases h2 : x = 1
          · rw [if_pos h2] at h
            cases h
            exact step y rfl (by rw [bcCombine_zero, if_neg h1, if_pos h2])
          · rw [if_neg h2] at h
            by_cases h3 : y = 1
            · rw [if_pos h3] at h
              cases h
              exact step x rfl (by rw [bcCombine_zero, if_neg h1, if_neg h2])
            · rw [if_neg h3] at h
              exact absurd h (by simp)

/-- C7: `broadcast` right-aligns the two size sequences; on success the
result has the longer length and each right-aligned position follows the
rule "equal passes, a 1 adopts the other side, unpaired positions of the
longer operand pass through"; it fails exactly when some aligned pair is
incompatible; and the three concrete examples of the spec hold. -/
theorem C7_broadcast :
    (∀ a b r : List Nat, Shape.broadcast a b = some r →
      r.length = max a.length b.length ∧
      ∀ i, i < r.length → r.reverse.getD i 0 = bcCombine a.reverse b.reverse i) ∧
    (∀ a b : List Nat, Shape.broadcast a b = none ↔ ¬ bcCompat a.reverse b.reverse) ∧
    Shape.broadcast [3, 1] [1, 4] = some [3, 4] ∧
    Shape.broadcast [5] [2, 5] = some [2, 5] ∧
    Shape.broadcast [3] [4] = none := by
  refine ⟨?_, ?_, by decide, by decide, by decide⟩
  · intro a b r h
    unfold Shape.broadcast at h
    cases hm : Shape.broadcastRev a.reverse b.reverse <;> rw [hm] at h
    · exact absurd h (by simp)
    · cases h
      obtain ⟨hlen, hget⟩ := broadcastRev_some_spec _ _ _ hm
      constructor
      · simpa using hlen
      · intro i hi
        rw [List.reverse_reverse]
        exact hget i (by simpa using hi)
  · intro a b
    unfold Shape.broadcast
    cases hm : Shape.broadcastRev a.reverse b.reverse
    · constructor
      · intro _ hc
        have := (broadcastRev_isSome_iff a.reverse b.reverse).mpr hc
        rw [hm] at this
        exact absurd this (by simp)
      · intro _
        rfl
    · have hc : bcCompat a.reverse b.reverse :=
        (broadcastRev_isSome_iff a.reverse b.reverse).mp (by rw [hm]; rfl)
      constructor
      · intro hnone
        exact absurd hnone (by simp)
      · intro hnc
        exact absurd hc hnc

/-- Lengths of derived strides. -/
theorem derivedStrides_length (b : Bool) :
    ∀ sizes : List Nat, (Shape.derivedStrides b sizes).length = sizes.length := by
  intro sizes
  induction sizes with
  | nil => rfl
  | cons s rest ih => simp [Shape.derivedStrides, ih]

/-- The derived stride of dimension `i` has the suffix product of the
sizes after `i` as magnitude. -/
theorem derivedStrides_getD (b : Bool) :
    ∀ (sizes : List Nat) (i : Nat), i < sizes.length →
      (Shape.derivedStrides b sizes).getD i (Stride.pos 0) =
        Stride.new ((sizes.drop (i + 1)).prod) b := by
  intro sizes
  induction sizes with
  | nil => intro i hi; simp at hi
  | cons s rest ih =>
    intro i hi
    cases i with
    | zero => rfl
    | succ j =>
      show (Shape.derivedStrides b rest).getD j (Stride.pos 0) = _
      rw [ih j (by simpa using hi)]
      rfl

/-- Lengths of flipped strides. -/
theorem flipStrides_length (D : List Nat) :
    ∀ (sts : List Stride) (j : Nat), (Shape.flipStrides D j sts).length = sts.length := by
  intro sts
  induction sts with
  | nil => intro j; rfl
  | cons st rest ih => intro j; simp [Shape.flipStrides, ih]

/-- Pointwise description of flipped strides. -/
theorem flipStrides_getD (D : List Nat) :
    ∀ (sts : List Stride) (j i : Nat), i < sts.length →
      (Shape.flipStrides D j sts).getD i (Stride.pos 0) =
        (if D.contains (j + i) then (sts.getD i (Stride.pos 0)).toggle
         else sts.getD i (Stride.pos 0)) := by
  intro sts
  induction sts with
  | nil => intro j i hi; simp at hi
  | cons st rest ih =>
    intro j i hi
    cases i with
    | zero => simp [Shape.flipStrides]
    | succ k =>
      show (Shape.flipStrides D (j + 1) rest).getD k (Stride.pos 0) = _
      rw [ih (j + 1) k (by simpa using hi)]
      have harith : j + 1 + k = j + (k + 1) := by omega
      rw [harith]
      rfl

/-- A suffix product splits off its head factor. -/
theorem drop_prod_getD :
    ∀ (l : List Nat) (i : Nat), i < l.length →
      (l.drop i).prod = l.getD i 0 * (l.drop (i + 1)).prod := by
  intro l i hi
  rw [List.drop_eq_getElem_cons hi, List.prod_cons, List.getD_eq_getElem?_getD,
    List.getElem?_eq_getElem hi]
  rfl

/-- Suffix products of positive sizes are positive. -/
theorem drop_prod_pos {l : List Nat} (hpos : ∀ x ∈ l, 0 < x) (i : Nat) :
    0 < (l.drop i).prod :=
  List.prod_pos fun a ha => hpos a (List.mem_of_mem_drop ha)

/-- Stride equality is reflexive. -/
theorem Stride.beq_self (s : Stride) : s.beq s = true := by
  cases s <;> simp [Stride.beq]

/-- Positive and negative strides of equal nonzero magnitude differ. -/
theorem Stride.beq_pos_neg {m : Nat} (hm : m ≠ 0) :
    Stride.beq (.pos m) (.neg m) = false := by
  cases m with
  | zero => exact absurd rfl hm
  | succ k => rfl

/-- Negative and positive strides of equal nonzero magnitude differ. -/
theorem Stride.beq_neg_pos {m : Nat} (hm : m ≠ 0) :
    Stride.beq (.neg m) (.pos m) = false := by
  cases m with
  | zero => exact absurd rfl hm
  | succ k => rfl

/-- A freshly derived row-major shape always passes the adjacent-pair
contiguity scan. -/
theorem contiguousCheck_new (szs : List Nat) (off : Nat) :
    (Shape.new szs off).contiguousCheck = true := by
  rw [Shape.contiguousCheck, List.all_eq_true]
  intro i hi
  have hi2 : i + 1 < szs.length := by
    have := List.mem_range.mp hi
    simp only [Shape.new, Shape.numdims] at this
    omega
  show Stride.beq ((Shape.derivedStrides true szs).getD i (Stride.pos 0))
    (((Shape.derivedStrides true szs).getD (i + 1) (Stride.pos 0)).mul
      (szs.getD (i + 1) 0)) = true
  rw [derivedStrides_getD true szs i (by omega), derivedStrides_getD true szs (i + 1) hi2]
  show Stride.beq (.pos ((szs.drop (i + 1)).prod))
    (.pos ((szs.drop (i + 2)).prod * szs.getD (i + 1) 0)) = true
  rw [drop_prod_getD szs (i + 1) hi2]
  simp [Stride.beq, Nat.mul_comm]

/-- Positive-direction derived strides read back as `.pos` of the suffix
product. -/
theorem derivedStrides_getD_true (sizes : List Nat) (i : Nat) (hi : i < sizes.length) :
    (Shape.derivedStrides true sizes).getD i (Stride.pos 0) =
      .pos ((sizes.drop (i + 1)).prod) := by
  rw [derivedStrides_getD true sizes i hi]
  rfl

/-- The adjacent-pair check of a flipped row-major shape at position `i`
computes whether flip membership agrees at `i` and `i+1` (all sizes
positive). -/
theorem pair_beq_flip (szs D : List Nat) (hpos : ∀ x ∈ szs, 0 < x)
    (i : Nat) (hi : i + 1 < szs.length) :
    Stride.beq
      ((Shape.flipStrides D 0 (Shape.derivedStrides true szs)).getD i (Stride.pos 0))
      (((Shape.flipStrides D 0 (Shape.derivedStrides true szs)).getD (i + 1)
          (Stride.pos 0)).mul (szs.getD (i + 1) 0)) =
      (D.contains i == D.contains (i + 1)) := by
  rw [flipStrides_getD D _ 0 i (by rw [derivedStrides_length]; omega),
    flipStrides_getD D _ 0 (i + 1) (by rw [derivedStrides_length]; omega),
    derivedStrides_getD_true szs i (by omega),
    derivedStrides_getD_true szs (i + 1) hi]
  simp only [Nat.zero_add]
  have hmag : (szs.drop (i + 2)).prod * szs.getD (i + 1) 0 = (szs.drop (i + 1)).prod := by
    rw [drop_prod_getD szs (i + 1) hi, Nat.mul_comm]
  have hne : (szs.drop (i + 1)).prod ≠ 0 :=
    Nat.pos_iff_ne_zero.mp (drop_prod_pos hpos (i + 1))
  cases hci : D.contains i <;> cases hci1 : D.contains (i + 1)
  · rw [if_neg Bool.false_ne_true, if_neg Bool.false_ne_true]
    show Stride.beq (.pos ((szs.drop (i + 1)).prod))
      (.pos ((szs.drop (i + 2)).prod * szs.getD (i + 1) 0)) = _
    rw [hmag]
    rw [Stride.beq_self]
    rfl
  · rw [if_neg Bool.false_ne_true, if_pos rfl]
    show Stride.beq (.pos ((szs.drop (i + 1)).prod))
      (.neg ((szs.drop (i + 2)).prod * szs.getD (i + 1) 0)) = _
    rw [hmag, Stride.beq_pos_neg hne]
    rfl
  · rw [if_pos rfl, if_neg Bool.false_ne_true]
    show Stride.beq (.neg ((szs.drop (i + 1)).prod))
      (.pos ((szs.drop (i + 2)).prod * szs.getD (i + 1) 0)) = _
    rw [hmag, Stride.beq_neg_pos hne]
    rfl
  · rw [if_pos rfl, if_pos rfl]
    show Stride.beq (.neg ((szs.drop (i + 1)).prod))
      (.neg ((szs.drop (i + 2)).prod * szs.getD (i + 1) 0)) = _
    rw [hmag, Stride.beq_self]
    rfl

/-- The flipped row-major shape passes the contiguity scan exactly when
flip membership is constant along adjacent dimensions (all sizes
positive). -/
theorem contiguousCheck_flip (szs : List Nat) (D : List Nat)
    (hpos : ∀ x ∈ szs, 0 < x) :
    Shape.contiguousCheck
        ⟨szs, Shape.flipStrides D 0 (Shape.derivedStrides true szs), 0⟩ = true ↔
      ∀ i, i + 1 < szs.length → D.contains i = D.contains (i + 1) := by
  rw [Shape.contiguousCheck, List.all_eq_true]
  constructor
  · intro h i hi
    have hpair := h i (List.mem_range.mpr (show i < szs.length - 1 by omega))
    rw [pair_beq_flip szs D hpos i hi] at hpair
    exact beq_iff_eq.mp hpair
  · intro h i hmem
    have hi : i + 1 < szs.length := by
      have h2 : i < szs.length - 1 := List.mem_range.mp hmem
      omega
    show Stride.beq _ _ = true
    rw [pair_beq_flip szs D hpos i hi]
    exact beq_iff_eq.mpr (h i hi)

/-- A Bool-valued function that is constant along adjacent indices below
`n` is globally true or globally false below `n`. -/
theorem chain_const (g : Nat → Bool) (n : Nat) :
    (∀ i, i + 1 < n → g i = g (i + 1)) ↔
      ((∀ i, i < n → g i = true) ∨ (∀ i, i < n → g i = false)) := by
  constructor
  · intro h
    have key : ∀ i, i < n → g i = g 0 := by
      intro i
      induction i with
      | zero => intro _; rfl
      | succ j ihj =>
        intro hi
        rw [← h j (by omega)]
        exact ihj (by omega)
    cases hg : g 0 with
    | true => exact Or.inl fun i hi => by rw [key i hi, hg]
    | false => exact Or.inr fun i hi => by rw [key i hi, hg]
  · rintro (h | h) i hi
    · rw [h i (by omega), h (i + 1) (by omega)]
    · rw [h i (by omega), h (i + 1) (by omega)]

/-- C2 (amended): a tensor built by `new` with at least one dimension and
all sizes positive is contiguous, and flipping a duplicate-free dimension
list `D` leaves it contiguous exactly when `D` covers all of its
dimensions or none of them; in particular flipping only the last of two or
more dimensions makes it non-contiguous, while `flip_all` and the empty
flip stay contiguous. -/
theorem C2_flip_contiguity {α : Type} :
    ∀ (dat : List α) (szs : List Nat) (n : Nat) (t : Tensor α) (D : List Nat),
      Tensor.new n dat szs = some t →
      szs ≠ [] →
      (∀ x ∈ szs, 0 < x) →
      D.Nodup →
      t.is_contiguousRust = some true ∧
      ∃ t2, t.flip D = some t2 ∧
        (t2.is_contiguousRust = some true ↔
          ((∀ i, i < szs.length → i ∈ D) ∨ (∀ i, i < szs.length → i ∉ D))) := by
  intro dat szs n t D hnew hnil hpos hnd
  have hlen : ¬ szs.length = 0 := fun hh => hnil (List.length_eq_zero.mp hh)
  unfold Tensor.new at hnew
  split at hnew
  · exact absurd hnew (by simp)
  · cases hnew
    constructor
    · show Shape.is_contiguousRust (Shape.new szs 0) = some true
      unfold Shape.is_contiguousRust
      rw [if_neg (show ¬ (Shape.new szs 0).numdims = 0 from hlen)]
      rw [contiguousCheck_new szs 0]
    · refine ⟨Tensor.mk ⟨n, dat⟩
        ⟨szs, Shape.flipStrides D 0 (Shape.derivedStrides true szs), 0⟩, ?_, ?_⟩
      · show Tensor.flip _ _ = _
        unfold Tensor.flip
        have hflip : (Tensor.init n dat szs).shape.flip D =
            some ⟨szs, Shape.flipStrides D 0 (Shape.derivedStrides true szs), 0⟩ := by
          show Shape.flip (Shape.new szs 0) D = _
          unfold Shape.flip
          rw [if_neg (not_not_intro hnd)]
          rfl
        rw [hflip]
        rfl
      · show Shape.is_contiguousRust
          ⟨szs, Shape.flipStrides D 0 (Shape.derivedStrides true szs), 0⟩ = some true ↔ _
        unfold Shape.is_contiguousRust
        rw [if_neg (show ¬ (Shape.numdims
          ⟨szs, Shape.flipStrides D 0 (Shape.derivedStrides true szs), 0⟩) = 0 from hlen)]
        rw [Option.some_inj]
        have h1 := contiguousCheck_flip szs D hpos
        have h2 := chain_const (fun i => D.contains i) szs.length
        have h3 : (∀ i, i < szs.length → D.contains i = true) ↔
            (∀ i, i < szs.length → i ∈ D) := by
          constructor <;> intro hh i hi
          · exact List.elem_iff.mp (hh i hi)
          · exact List.elem_iff.mpr (hh i hi)
        have h4 : (∀ i, i < szs.length → D.contains i = false) ↔
            (∀ i, i < szs.length → i ∉ D) := by
          constructor <;> intro hh i hi
          · intro hmem
            have hc : D.contains i = true := List.elem_iff.mpr hmem
            rw [hh i hi] at hc
            exact absurd hc (by simp)
          · cases hcc : D.contains i with
            | true => exact absurd (List.elem_iff.mp hcc) (hh i hi)
            | false => rfl
        exact h1.trans (h2.trans (or_congr h3 h4))

/-- Witness for C2: flipping all dimensions of a fresh 2×2 tensor. -/
theorem C2_witness :
    Tensor.is_contiguousRust (α := Int) (Tensor.init 0 [1, 2, 3, 4] [2, 2]) = some true ∧
    ∃ t2, (Tensor.init 0 ([1, 2, 3, 4] : List Int) [2, 2]).flip [0, 1] = some t2 ∧
      (t2.is_contiguousRust = some true ↔
        ((∀ i, i < ([2, 2] : List Nat).length → i ∈ ([0, 1] : List Nat)) ∨
         (∀ i, i < ([2, 2] : List Nat).length → i ∉ ([0, 1] : List Nat)))) :=
  C2_flip_contiguity [1, 2, 3, 4] [2, 2] 0 _ [0, 1] (by decide) (by decide)
    (by decide) (by decide)

/-- Counterexample for C2 as stated: flipping only the last dimension of a
fresh 2×2 tensor yields a non-contiguous tensor, contrary to the claim
that flipping only the last dimension stays contiguous. -/
theorem C2_counterexample :
    ((Tensor.new 0 ([1, 2, 3, 4] : List Int) [2, 2]).bind fun t =>
      (t.flip [1]).bind Tensor.is_contiguousRust) = some false ∧
    ((Tensor.new 0 ([1, 2, 3, 4] : List Int) [2, 2]).bind fun t =>
      (t.flip [1]).bind Tensor.is_contiguousRust) ≠ some true := by
  constructor
  · decide
  · decide

/-- Collecting a list of already-successful values succeeds with those
values. -/
theorem collectSome_map_some {α : Type} :
    ∀ vl : List α, collectSome (vl.map some) = some vl := by
  intro vl
  induction vl with
  | nil => rfl
  | cons v rest ih =>
    show (match some v, collectSome (rest.map some) with
      | some a, some l => some (a :: l)
      | _, _ => none) = _
    rw [ih]

/-- Cons step of the per-dimension bound check. -/
theorem validIdxB_cons {s i : Nat} {rest is : List Nat} :
    Shape.validIdxB (s :: rest) (i :: is) = true ↔
      (i < s ∧ Shape.validIdxB rest is = true) := by
  show ((s, i) :: rest.zip is).all (fun p => decide (p.2 < p.1)) = true ↔ _
  rw [List.all_cons, Bool.and_eq_true]
  constructor
  · rintro ⟨h1, h2⟩
    exact ⟨of_decide_eq_true h1, h2⟩
  · rintro ⟨h1, h2⟩
    exact ⟨decide_eq_true h1, h2⟩

/-- Every index produced by the row-major enumerator has full length and
is in bounds. -/
theorem Indexer_mem :
    ∀ (sizes : List Nat) (idx : List Nat), idx ∈ Indexer sizes →
      idx.length = sizes.length ∧ Shape.validIdxB sizes idx = true := by
  intro sizes
  induction sizes with
  | nil =>
    intro idx hm
    have : idx = [] := by simpa [Indexer] using hm
    subst this
    exact ⟨rfl, rfl⟩
  | cons s rest ih =>
    intro idx hm
    rw [Indexer, List.mem_flatMap] at hm
    obtain ⟨i, hi, hmm⟩ := hm
    rw [List.mem_map] at hmm
    obtain ⟨idx2, hm2, heq⟩ := hmm
    subst heq
    obtain ⟨hl, hv⟩ := ih idx2 hm2
    refine ⟨by simp [hl], ?_⟩
    exact validIdxB_cons.mpr ⟨List.mem_range.mp hi, hv⟩

/-- The offset sum along canonically derived strides is the row-major
rank. -/
theorem offsetSum_derived :
    ∀ (sizes idx : List Nat),
      Shape.offsetSum sizes (Shape.derivedStrides true sizes) idx = rank sizes idx := by
  intro sizes
  induction sizes with
  | nil => intro idx; cases idx <;> rfl
  | cons s rest ih =>
    intro idx
    cases idx with
    | nil => rfl
    | cons i is =>
      show Stride.offsetOf (Stride.new rest.prod true) i s +
        Shape.offsetSum rest (Shape.derivedStrides true rest) is = _
      rw [ih is]
      rfl

/-- The row-major rank of an in-bounds index is below the size product. -/
theorem rank_lt :
    ∀ (sizes idx : List Nat), idx.length = sizes.length →
      Shape.validIdxB sizes idx = true → rank sizes idx < sizes.prod := by
  intro sizes
  induction sizes with
  | nil =>
    intro idx hl _
    have : idx = [] := List.length_eq_zero.mp hl
    subst this
    show 0 < 1
    omega
  | cons s rest ih =>
    intro idx hl hv
    cases idx with
    | nil => exact absurd hl (by simp)
    | cons i is =>
      have hl2 : is.length = rest.length := by simpa using hl
      have hv2 : Shape.validIdxB rest is = true := (validIdxB_cons.mp hv).2
      have hib : i < s := (validIdxB_cons.mp hv).1
      have hr := ih is hl2 hv2
      show i * rest.prod + rank rest is < (s :: rest).prod
      rw [List.prod_cons]
      have hP : 0 < rest.prod := by omega
      calc i * rest.prod + rank rest is
          < i * rest.prod + rest.prod := by omega
        _ = (i + 1) * rest.prod := by ring
        _ ≤ s * rest.prod := Nat.mul_le_mul_right _ (by omega)

/-- The row-major rank is injective on in-bounds indices. -/
theorem rank_inj :
    ∀ (sizes p q : List Nat),
      p.length = sizes.length → q.length = sizes.length →
      Shape.validIdxB sizes p = true → Shape.validIdxB sizes q = true →
      rank sizes p = rank sizes q → p = q := by
  intro sizes
  induction sizes with
  | nil =>
    intro p q hp hq _ _ _
    rw [List.length_eq_zero.mp hp, List.length_eq_zero.mp hq]
  | cons s rest ih =>
    intro p q hp hq hvp hvq hr
    cases p with
    | nil => exact absurd hp (by simp)
    | cons i is =>
      cases q with
      | nil => exact absurd hq (by simp)
      | cons j js =>
        have hil : is.length = rest.length := by simpa using hp
        have hjl : js.length = rest.length := by simpa using hq
        have hvi : Shape.validIdxB rest is = true := (validIdxB_cons.mp hvp).2
        have hvj : Shape.validIdxB rest js = true := (validIdxB_cons.mp hvq).2
        have hib : i < s := (validIdxB_cons.mp hvp).1
        have hjb : j < s := (validIdxB_cons.mp hvq).1
        have hri : rank rest is < rest.prod := rank_lt rest is hil hvi
        have hrj : rank rest js < rest.prod := rank_lt rest js hjl hvj
        have hr2 : i * rest.prod + rank rest is = j * rest.prod + rank rest js := hr
        have hij : i = j := by
          by_contra hne
          rcases Nat.lt_or_ge i j with hlt | hge
          · have : i * rest.prod + rest.prod ≤ j * rest.prod := by
              calc i * rest.prod + rest.prod = (i + 1) * rest.prod := by ring
                _ ≤ j * rest.prod := Nat.mul_le_mul_right _ (by omega)
            omega
          · have hgt : j < i := by omega
            have : j * rest.prod + rest.prod ≤ i * rest.prod := by
              calc j * rest.prod + rest.prod = (j + 1) * rest.prod := by ring
                _ ≤ i * rest.prod := Nat.mul_le_mul_right _ (by omega)
            omega
        subst hij
        have : rank rest is = rank rest js := by omega
        rw [ih is js hil hjl hvi hvj this]

/-- Decomposition of `range (s * P)` into the row-major double loop. -/
theorem range_mul_flatMap :
    ∀ s P : Nat, (List.range s).flatMap (fun i => (List.range P).map fun j => i * P + j) =
      List.range (s * P) := by
  intro s P
  induction s with
  | zero => simp
  | succ k ih =>
    rw [List.range_succ, List.flatMap_append]
    rw [ih]
    have : (k + 1) * P = k * P + P := by ring
    rw [this, List.range_add]
    simp only [List.flatMap_cons, List.flatMap_nil, List.append_nil]

/-- Mapping the row-major rank over the index enumeration yields exactly
`range (prod sizes)` in order. -/
theorem Indexer_map_rank :
    ∀ sizes : List Nat, (Indexer sizes).map (rank sizes) = List.range sizes.prod := by
  intro sizes
  induction sizes with
  | nil => rfl
  | cons s rest ih =>
    show ((List.range s).flatMap fun i => (Indexer rest).map (i :: ·)).map
      (rank (s :: rest)) = _
    rw [List.map_flatMap]
    have inner : ∀ i : Nat, ((Indexer rest).map (i :: ·)).map (rank (s :: rest)) =
        (List.range rest.prod).map fun j => i * rest.prod + j := by
      intro i
      rw [List.map_map]
      have : (rank (s :: rest)) ∘ (i :: ·) =
          (fun j => i * rest.prod + j) ∘ (rank rest) := by
        funext idx
        rfl
      rw [this, ← List.map_map, ih]
    rw [List.flatMap_congr fun i _ => inner i]
    rw [range_mul_flatMap, List.prod_cons]

/-- `Shape::element` succeeds on a full-length in-bounds index and returns
the stride-weighted sum plus the base offset. -/
theorem element_some (s : Shape) (idx : List Nat)
    (hlen : idx.length = s.sizes.length) (hv : Shape.validIdxB s.sizes idx = true) :
    s.element idx = some (Shape.offsetSum s.sizes s.strides idx + s.offset) := by
  unfold Shape.element
  rw [if_neg (by rw [hlen]; exact fun hh => hh rfl), if_neg (by rw [hv]; simp)]

/-- Reading consecutive positions `offset..offset+m` of a buffer yields
its extracted sub-range. -/
theorem range_map_get_extract {α : Type} :
    ∀ (l : List α) (off m : Nat), off + m ≤ l.length →
      (List.range m).map (fun k => l.get? (k + off)) =
        ((l.drop off).take m).map some := by
  intro l off m hle
  apply List.ext_getElem?
  intro n
  rw [List.getElem?_map, List.getElem?_map, List.getElem?_take, List.getElem?_drop]
  by_cases hn : n < m
  · rw [if_pos hn, List.getElem?_range hn]
    have hlt : off + n < l.length := by omega
    rw [List.getElem?_eq_getElem hlt]
    show some (l.get? (n + off)) = some (some _)
    rw [List.get?_eq_getElem?, Nat.add_comm n off, List.getElem?_eq_getElem hlt]
  · rw [if_neg hn, List.getElem?_eq_none (by simpa using Nat.le_of_not_lt hn)]
    rfl

/-- A shape whose strides are the canonical row-major derivation of its
sizes (and which has at least one dimension) passes `is_contiguous`. -/
theorem canonical_is_contiguous (s : Shape)
    (hstr : s.strides = Shape.derivedStrides true s.sizes) (hnil : s.sizes ≠ []) :
    s.is_contiguousRust = some true := by
  have hs : s = Shape.new s.sizes s.offset := by
    cases s
    simp only [Shape.new, Shape.mk.injEq, and_true, true_and]
    exact hstr
  rw [hs]
  unfold Shape.is_contiguousRust
  rw [if_neg (show ¬ (Shape.new s.sizes s.offset).numdims = 0 from
    fun hh => hnil (List.length_eq_zero.mp hh))]
  rw [contiguousCheck_new]

/-- The slow path of a canonical row-major tensor reads off exactly the
backing sub-range `[offset, offset+numel)`. -/
theorem data_non_contiguous_canonical {α : Type} (t : Tensor α)
    (hstr : t.shape.strides = Shape.derivedStrides true t.shape.sizes)
    (hle : t.offset + t.numel ≤ t.buf.elems.length) :
    t.data_non_contiguous = some ((t.buf.elems.drop t.offset).take t.numel) := by
  unfold Tensor.data_non_contiguous
  have hmap : (Indexer t.sizes).map (fun idx =>
      match t.shape.element idx with
      | none => none
      | some off => t.buf.elems.get? off) =
      (Indexer t.sizes).map (fun idx =>
        t.buf.elems.get? (rank t.shape.sizes idx + t.shape.offset)) := by
    apply List.map_congr_left
    intro idx hm
    obtain ⟨hl, hv⟩ := Indexer_mem t.sizes idx hm
    rw [element_some t.shape idx hl hv, hstr, offsetSum_derived]
  rw [hmap]
  have hcomp : (Indexer t.sizes).map (fun idx =>
      t.buf.elems.get? (rank t.shape.sizes idx + t.shape.offset)) =
      ((Indexer t.sizes).map (rank t.sizes)).map
        (fun k => t.buf.elems.get? (k + t.shape.offset)) := by
    rw [List.map_map]
    rfl
  rw [hcomp, Indexer_map_rank]
  rw [range_map_get_extract t.buf.elems t.shape.offset t.sizes.prod (by exact hle)]
  exact collectSome_map_some _

/-- C3 (amended): for a tensor whose strides are the canonical row-major
derivation of its sizes (with at least one dimension and an in-bounds
backing range) — e.g. any tensor built by `new` — the fast path
`data_contiguous` and the slow path `data_non_contiguous` agree, so
`data()` returns the logical row-major element sequence. For merely
`is_contiguous` tensors (e.g. a flip of all dimensions) the two paths can
disagree. -/
theorem C3_data_paths_agree {α : Type} :
    ∀ t : Tensor α,
      t.shape.strides = Shape.derivedStrides true t.shape.sizes →
      t.shape.sizes ≠ [] →
      t.offset + t.numel ≤ t.buf.elems.length →
      t.data_contiguous = t.data_non_contiguous ∧ t.data = t.data_non_contiguous := by
  intro t hstr hnil hle
  have hc : t.data_contiguous =
      some ((t.buf.elems.drop t.offset).take t.numel) := by
    unfold Tensor.data_contiguous
    rw [if_pos hle]
  have hnc := data_non_contiguous_canonical t hstr hle
  have hcontig : t.is_contiguousRust = some true :=
    canonical_is_contiguous t.shape hstr hnil
  constructor
  · rw [hc, hnc]
  · show Tensor.data t = _
    unfold Tensor.data
    rw [show t.is_contiguousRust = some true from hcontig]
    rw [hc, hnc]

/-- Witness for C3 at a fresh `[2,2]` tensor. -/
theorem C3_witness :
    Tensor.strides (α := Int) ⟨⟨0, [1, 2, 3, 4]⟩, Shape.new [2, 2] 0⟩ =
      Shape.derivedStrides true [2, 2] ∧
    Tensor.data_contiguous (α := Int) ⟨⟨0, [1, 2, 3, 4]⟩, Shape.new [2, 2] 0⟩ =
      Tensor.data_non_contiguous (α := Int) ⟨⟨0, [1, 2, 3, 4]⟩, Shape.new [2, 2] 0⟩ ∧
    Tensor.data (α := Int) ⟨⟨0, [1, 2, 3, 4]⟩, Shape.new [2, 2] 0⟩ =
      Tensor.data_non_contiguous (α := Int) ⟨⟨0, [1, 2, 3, 4]⟩, Shape.new [2, 2] 0⟩ :=
  ⟨by decide,
    (C3_data_paths_agree ⟨⟨0, [1, 2, 3, 4]⟩, Shape.new [2, 2] 0⟩ (by decide) (by decide)
      (by decide)).1,
    (C3_data_paths_agree ⟨⟨0, [1, 2, 3, 4]⟩, Shape.new [2, 2] 0⟩ (by decide) (by decide)
      (by decide)).2⟩

/-- Counterexample for C3 as stated: flipping all dimensions of a fresh
2×2 tensor passes `is_contiguous`, yet the fast sub-range path returns the
buffer order `[1,2,3,4]` while the logical row-major enumeration is
`[4,3,2,1]`, so `data()` (which takes the fast path) is not the logical
sequence. -/
theorem C3_counterexample :
    Tensor.flip_all (α := Int) ⟨⟨0, [1, 2, 3, 4]⟩, Shape.new [2, 2] 0⟩ =
      some ⟨⟨0, [1, 2, 3, 4]⟩, ⟨[2, 2], [Stride.neg 2, Stride.neg 1], 0⟩⟩ ∧
    Tensor.is_contiguousRust (α := Int)
      ⟨⟨0, [1, 2, 3, 4]⟩, ⟨[2, 2], [Stride.neg 2, Stride.neg 1], 0⟩⟩ = some true ∧
    Tensor.data_contiguous (α := Int)
      ⟨⟨0, [1, 2, 3, 4]⟩, ⟨[2, 2], [Stride.neg 2, Stride.neg 1], 0⟩⟩ = some [1, 2, 3, 4] ∧
    Tensor.data_non_contiguous (α := Int)
      ⟨⟨0, [1, 2, 3, 4]⟩, ⟨[2, 2], [Stride.neg 2, Stride.neg 1], 0⟩⟩ = some [4, 3, 2, 1] ∧
    Tensor.data (α := Int)
      ⟨⟨0, [1, 2, 3, 4]⟩, ⟨[2, 2], [Stride.neg 2, Stride.neg 1], 0⟩⟩ = some [1, 2, 3, 4] ∧
    ([1, 2, 3, 4] : List Int) ≠ [4, 3, 2, 1] := by
  refine ⟨by decide, by decide, by decide, by decide, by decide, by decide⟩

/-- C5 (amended): for a view `b` whose strides are the canonical row-major
derivation of its sizes, whose base offset is 0 and whose logical extent
fills its buffer (e.g. `b = a.view(...)` of a tensor built by `new`),
`index_map(b, f, idx)` returns `c` with `b`'s shape, a buffer distinct
from `a`'s, `f` applied at the addressed logical position, and every other
logical position of `b` unchanged. For general views sharing `a`'s buffer
the write lands at a buffer offset, not a logical position, and can change
other logical elements or fail. -/
theorem C5_index_map_cow {α : Type} :
    ∀ (a b : Tensor α) (f : α → α) (idx : List Nat) (n : Nat),
      b.shape.strides = Shape.derivedStrides true b.shape.sizes →
      b.offset = 0 →
      b.shape.sizes ≠ [] →
      b.buf.elems.length = b.numel →
      b.buf.id = a.buf.id →
      a.buf.id < n →
      idx.length = b.sizes.length →
      Shape.validIdxB b.sizes idx = true →
      ∃ c, b.index_map f idx n = some c ∧
        c.shape = b.shape ∧
        c.buf.id ≠ a.buf.id ∧
        (∃ old, b.index idx = some old ∧ c.index idx = some (f old)) ∧
        (∀ p, p.length = b.sizes.length → Shape.validIdxB b.sizes p = true →
          p ≠ idx → c.index p = b.index p) := by
  intro a b f idx n hstr hoff hnil hlenbuf hshare hn hlen hv
  have hdata : b.data = some b.buf.elems := by
    unfold Tensor.data
    rw [show b.is_contiguousRust = some true from
      canonical_is_contiguous b.shape hstr hnil]
    unfold Tensor.data_contiguous
    rw [if_pos (by rw [hoff, hlenbuf]; omega)]
    rw [hoff, List.drop_zero, ← hlenbuf, List.take_length]
  have helem : b.shape.element idx = some (rank b.sizes idx) := by
    rw [element_some b.shape idx (by exact hlen) (by exact hv), hstr, offsetSum_derived]
    show some (rank b.sizes idx + b.offset) = _
    rw [hoff, Nat.add_zero]
  have hlt : rank b.sizes idx < b.buf.elems.length := by
    rw [hlenbuf]
    exact rank_lt b.sizes idx hlen hv
  have hget : b.buf.elems.get? (rank b.sizes idx) =
      some (b.buf.elems.get ⟨rank b.sizes idx, hlt⟩) := by
    rw [List.get?_eq_getElem?, List.getElem?_eq_getElem hlt, List.get_eq_getElem]
  refine ⟨⟨⟨n, b.buf.elems.set (rank b.sizes idx)
      (f (b.buf.elems.get ⟨rank b.sizes idx, hlt⟩))⟩, b.shape⟩, ?_, rfl, ?_, ?_, ?_⟩
  · simp only [Tensor.index_map, hdata, helem, hget]
  · show n ≠ a.buf.id
    omega
  · refine ⟨b.buf.elems.get ⟨rank b.sizes idx, hlt⟩, ?_, ?_⟩
    · simp only [Tensor.index, helem, hget]
    · simp only [Tensor.index, helem]
      rw [List.get?_eq_getElem?, List.getElem?_set_self hlt]
  · intro p hpl hpv hpne
    have helemp : b.shape.element p = some (rank b.sizes p) := by
      rw [element_some b.shape p (by exact hpl) (by exact hpv), hstr, offsetSum_derived]
      show some (rank b.sizes p + b.offset) = _
      rw [hoff, Nat.add_zero]
    have hrne : rank b.sizes idx ≠ rank b.sizes p := fun hr =>
      hpne (rank_inj b.sizes idx p hlen hpl hv hpv hr).symm
    simp only [Tensor.index, helemp]
    rw [List.get?_eq_getElem?, List.get?_eq_getElem?, List.getElem?_set_ne hrne]

/-- Witness for C5 at a fresh 2×2 tensor, incrementing position [0,1]. -/
theorem C5_witness :
    ∃ c, Tensor.index_map (α := Int) ⟨⟨0, [1, 2, 3, 4]⟩, Shape.new [2, 2] 0⟩
        (fun x => x + 1) [0, 1] 1 = some c ∧
      c.shape = (⟨⟨0, [1, 2, 3, 4]⟩, Shape.new [2, 2] 0⟩ : Tensor Int).shape ∧
      c.buf.id ≠ (⟨⟨0, [1, 2, 3, 4]⟩, Shape.new [2, 2] 0⟩ : Tensor Int).buf.id ∧
      (∃ old, (⟨⟨0, [1, 2, 3, 4]⟩, Shape.new [2, 2] 0⟩ : Tensor Int).index [0, 1] =
          some old ∧ c.index [0, 1] = some (old + 1)) ∧
      (∀ p, p.length = (Tensor.sizes (α := Int)
          ⟨⟨0, [1, 2, 3, 4]⟩, Shape.new [2, 2] 0⟩).length →
        Shape.validIdxB (Tensor.sizes (α := Int)
          ⟨⟨0, [1, 2, 3, 4]⟩, Shape.new [2, 2] 0⟩) p = true →
        p ≠ [0, 1] →
        c.index p = (⟨⟨0, [1, 2, 3, 4]⟩, Shape.new [2, 2] 0⟩ : Tensor Int).index p) :=
  C5_index_map_cow ⟨⟨0, [1, 2, 3, 4]⟩, Shape.new [2, 2] 0⟩
    ⟨⟨0, [1, 2, 3, 4]⟩, Shape.new [2, 2] 0⟩ (fun x => x + 1) [0, 1] 1
    (by decide) (by decide) (by decide) (by decide) (by decide) (by decide)
    (by decide) (by decide)

/-- Counterexample for C5 as stated: with `b` the flip (over dimension 0)
of a fresh 2×2 tensor sharing its buffer, `index_map(b, +10, [0,0])`
changes the logical element at position [1,0] (from 1 to 3) — the
materialized copy is indexed by a buffer offset, so a non-addressed
logical element of `b` is not unchanged. -/
theorem C5_counterexample :
    ((Tensor.flip (α := Int) ⟨⟨0, [1, 2, 3, 4]⟩, Shape.new [2, 2] 0⟩ [0]).bind fun b =>
      (b.index_map (fun x => x + 10) [0, 0] 1).bind fun c => c.index [1, 0]) =
        some 3 ∧
    ((Tensor.flip (α := Int) ⟨⟨0, [1, 2, 3, 4]⟩, Shape.new [2, 2] 0⟩ [0]).bind fun b =>
      b.index [1, 0]) = some 1 ∧
    some (3 : Int) ≠ some (1 : Int) := by
  refine ⟨by decide, by decide, by decide⟩

/-- A successful checked subtraction certifies the bound and computes the
difference. -/
theorem csub_some {a b c : Nat} (h : csub a b = some c) :
    b ≤ a ∧ c = a - b ∧ (c : Int) = (a : Int) - (b : Int) := by
  unfold csub at h
  split at h
  · cases h
    refine ⟨by omega, rfl, by omega⟩
  · exact absurd h (by simp)

/-- Characterization of the slice fold: on success the produced sizes are
`end' - start` per dimension and the final offset is the initial offset
plus the signed per-dimension contributions. -/
theorem sliceFold_spec :
    ∀ (l : List (Nat × Stride × (Nat × Nat))) (o : Nat) (szs : List Nat) (oF : Nat),
      Shape.sliceFold l o = some (szs, oF) →
      szs = l.map (fun x => rangeEnd x.1 x.2.2.2 - x.2.2.1) ∧
      (oF : Int) = (o : Int) + (l.map sliceContribution).sum := by
  intro l
  induction l with
  | nil =>
    intro o szs oF h
    cases h
    refine ⟨rfl, by simp⟩
  | cons x rest ih =>
    obtain ⟨size, st, start, stop⟩ := x
    intro o szs oF h
    cases st with
    | pos m =>
      have h2 : (match Shape.sliceFold rest (o + start * m) with
          | none => none
          | some (szs, oF) =>
            some (((if stop = 0 then size else stop) - start) :: szs, oF)) =
          some (szs, oF) := h
      cases hrec : Shape.sliceFold rest (o + start * m) with
      | none =>
        rw [hrec] at h2
        exact absurd h2 (by simp)
      | some pr =>
        obtain ⟨szs2, oF2⟩ := pr
        rw [hrec] at h2
        have h3 : some (((if stop = 0 then size else stop) - start) :: szs2, oF2) =
            some (szs, oF) := h2
        cases h3
        obtain ⟨hs, ho⟩ := ih (o + start * m) _ _ hrec
        constructor
        · rw [List.map_cons, hs]
          rfl
        · rw [List.map_cons, List.sum_cons]
          have hcontrib : sliceContribution (size, Stride.pos m, (start, stop)) =
              ((start * m : Nat) : Int) := rfl
          rw [hcontrib, ← add_assoc, ← Nat.cast_add]
          exact ho
    | neg m =>
      have h2 : (match (match csub (if stop = 0 then size else stop) 1 with
            | none => none
            | some e1 => csub o (e1 * m)) with
          | none => none
          | some o2 =>
            match Shape.sliceFold rest o2 with
            | none => none
            | some (szs, oF) =>
              some (((if stop = 0 then size else stop) - start) :: szs, oF)) =
          some (szs, oF) := h
      cases hce : csub (if stop = 0 then size else stop) 1 with
      | none =>
        rw [hce] at h2
        exact absurd h2 (by simp)
      | some e1 =>
        rw [hce] at h2
        have h3 : (match csub o (e1 * m) with
            | none => none
            | some o2 =>
              match Shape.sliceFold rest o2 with
              | none => none
              | some (szs, oF) =>
                some (((if stop = 0 then size else stop) - start) :: szs, oF)) =
            some (szs, oF) := h2
        cases hco : csub o (e1 * m) with
        | none =>
          rw [hco] at h3
          exact absurd h3 (by simp)
        | some o2 =>
          rw [hco] at h3
          have h3b : (match Shape.sliceFold rest o2 with
              | none => none
              | some (szs, oF) =>
                some (((if stop = 0 then size else stop) - start) :: szs, oF)) =
              some (szs, oF) := h3
          cases hrec : Shape.sliceFold rest o2 with
          | none =>
            rw [hrec] at h3b
            exact absurd h3b (by simp)
          | some pr =>
            obtain ⟨szs2, oF2⟩ := pr
            rw [hrec] at h3b
            have h4 : some (((if stop = 0 then size else stop) - start) :: szs2, oF2) =
                some (szs, oF) := h3b
            cases h4
            obtain ⟨hs, ho⟩ := ih o2 _ _ hrec
            obtain ⟨hle1, he1, _⟩ := csub_some hce
            obtain ⟨hle2, _, ho2⟩ := csub_some hco
            constructor
            · rw [List.map_cons, hs]
              rfl
            · rw [List.map_cons, List.sum_cons]
              have hcontrib : sliceContribution (size, Stride.neg m, (start, stop)) =
                  -(((rangeEnd size stop - 1) * m : Nat) : Int) := rfl
              rw [hcontrib]
              have hE : rangeEnd size stop - 1 = e1 := by
                rw [he1]
                rfl
              rw [hE, ho, ho2]
              ring

/-- C4 (amended): `slice` validates its ranges (failing on `start > end`
with a nonzero end or on a bound above the dimension size), pads missing
trailing ranges with the `(0,0)` full-extent sentinel, and on success
returns a buffer-sharing view with sizes `end' - start` (where `end'`
reads an `end` of 0 as the full size), unchanged strides, and a base
offset obtained from a direction-dependent initial offset — the
receiver's offset when the first stride is positive-direction, or
`numel - 1 - offset` when negative-direction — advanced by
`start*magnitude` for positive-direction dimensions and retreated by
`(end'-1)*magnitude` for negative-direction ones. -/
theorem C4_slice_spec {α : Type} :
    ∀ (t : Tensor α) (ranges : List (Nat × Nat)),
      (Shape.validRangesB t.shape ranges = false → t.slice ranges = none) ∧
      (∀ r, t.slice ranges = some r →
        r.buf = t.buf ∧
        r.shape.strides = t.shape.strides ∧
        r.shape.sizes = (Shape.zip3 t.shape.sizes t.shape.strides
            (ranges ++ List.replicate (t.shape.numdims - ranges.length) (0, 0))).map
          (fun x => rangeEnd x.1 x.2.2.2 - x.2.2.1) ∧
        (r.shape.offset : Int) = sliceInit t.shape +
          ((Shape.zip3 t.shape.sizes t.shape.strides
            (ranges ++ List.replicate (t.shape.numdims - ranges.length) (0, 0))).map
              sliceContribution).sum) := by
  intro t ranges
  constructor
  · intro hf
    unfold Tensor.slice Shape.slice
    rw [if_pos (by rw [hf]; simp)]
  · intro r h
    unfold Tensor.slice at h
    cases hs : t.shape.slice ranges with
    | none =>
      rw [hs] at h
      exact absurd h (by simp)
    | some sh =>
      rw [hs] at h
      have h2 : some (Tensor.mk t.buf sh) = some r := h
      cases h2
      unfold Shape.slice at hs
      by_cases hv : Shape.validRangesB t.shape ranges = true
      · rw [if_neg (not_not_intro hv)] at hs
        cases hh : t.shape.strides.head? with
        | none =>
          rw [hh] at hs
          exact absurd hs (by simp)
        | some st0 =>
          rw [hh] at hs
          cases st0 with
          | pos m0 =>
            have hsA : (match Shape.sliceFold (Shape.zip3 t.shape.sizes t.shape.strides
                  (ranges ++ List.replicate (t.shape.numdims - ranges.length) (0, 0)))
                  t.shape.offset with
                | none => none
                | some (sizes, oF) =>
                  some { sizes := sizes, strides := t.shape.strides, offset := oF }) =
                some sh := hs
            cases hf2 : Shape.sliceFold (Shape.zip3 t.shape.sizes t.shape.strides
                (ranges ++ List.replicate (t.shape.numdims - ranges.length) (0, 0)))
                t.shape.offset with
            | none =>
              rw [hf2] at hsA
              exact absurd hsA (by simp)
            | some pr =>
              obtain ⟨sizes2, oF2⟩ := pr
              rw [hf2] at hsA
              have hsB : some (Shape.mk sizes2 t.shape.strides oF2) = some sh := hsA
              cases hsB
              obtain ⟨hsz, hof⟩ := sliceFold_spec _ _ _ _ hf2
              have hinit : sliceInit t.shape = (t.shape.offset : Int) := by
                unfold sliceInit
                rw [hh]
              refine ⟨rfl, rfl, hsz, ?_⟩
              rw [hinit]
              exact hof
          | neg m0 =>
            have hsA : (match (match csub t.shape.numel 1 with
                  | none => none
                  | some n1 => csub n1 t.shape.offset) with
                | none => none
                | some o =>
                  match Shape.sliceFold (Shape.zip3 t.shape.sizes t.shape.strides
                      (ranges ++ List.replicate (t.shape.numdims - ranges.length) (0, 0)))
                      o with
                  | none => none
                  | some (sizes, oF) =>
                    some { sizes := sizes, strides := t.shape.strides, offset := oF }) =
                some sh := hs
            cases hc1 : csub t.shape.numel 1 with
            | none =>
              rw [hc1] at hsA
              exact absurd hsA (by simp)
            | some n1 =>
              rw [hc1] at hsA
              have hsB : (match csub n1 t.shape.offset with
                  | none => none
                  | some o =>
                    match Shape.sliceFold (Shape.zip3 t.shape.sizes t.shape.strides
                        (ranges ++ List.replicate (t.shape.numdims - ranges.length)
                          (0, 0))) o with
                    | none => none
                    | some (sizes, oF) =>
                      some { sizes := sizes, strides := t.shape.strides, offset := oF }) =
                  some sh := hsA
              cases hc2 : csub n1 t.shape.offset with
              | none =>
                rw [hc2] at hsB
                exact absurd hsB (by simp)
              | some o =>
                rw [hc2] at hsB
                have hsC : (match Shape.sliceFold (Shape.zip3 t.shape.sizes
                      t.shape.strides (ranges ++ List.replicate
                        (t.shape.numdims - ranges.length) (0, 0))) o with
                    | none => none
                    | some (sizes, oF) =>
                      some { sizes := sizes, strides := t.shape.strides, offset := oF }) =
                    some sh := hsB
                cases hf2 : Shape.sliceFold (Shape.zip3 t.shape.sizes t.shape.strides
                    (ranges ++ List.replicate (t.shape.numdims - ranges.length) (0, 0)))
                    o with
                | none =>
                  rw [hf2] at hsC
                  exact absurd hsC (by simp)
                | some pr =>
                  obtain ⟨sizes2, oF2⟩ := pr
                  rw [hf2] at hsC
                  have hsD : some (Shape.mk sizes2 t.shape.strides oF2) = some sh := hsC
                  cases hsD
                  obtain ⟨hsz, hof⟩ := sliceFold_spec _ _ _ _ hf2
                  obtain ⟨_, _, hn1⟩ := csub_some hc1
                  obtain ⟨_, _, ho⟩ := csub_some hc2
                  have hinit : sliceInit t.shape =
                      (t.shape.numel : Int) - 1 - (t.shape.offset : Int) := by
                    unfold sliceInit
                    rw [hh]
                  refine ⟨rfl, rfl, hsz, ?_⟩
                  rw [hinit, hof, ho, hn1]
                  ring
      · rw [if_pos (by rw [Bool.not_eq_true] at hv; rw [hv]; simp)] at hs
        exact absurd hs (by simp)

/-- Witness for C4: slicing a fresh `[2,3]` tensor with `[(1,2)]`. -/
theorem C4_witness :
    (⟨⟨0, [1, 2, 3, 4, 5, 6]⟩, ⟨[1, 3], [Stride.pos 3, Stride.pos 1], 3⟩⟩ :
        Tensor Int).buf =
      (⟨⟨0, [1, 2, 3, 4, 5, 6]⟩, Shape.new [2, 3] 0⟩ : Tensor Int).buf ∧
    (⟨⟨0, [1, 2, 3, 4, 5, 6]⟩, ⟨[1, 3], [Stride.pos 3, Stride.pos 1], 3⟩⟩ :
        Tensor Int).shape.strides =
      (⟨⟨0, [1, 2, 3, 4, 5, 6]⟩, Shape.new [2, 3] 0⟩ : Tensor Int).shape.strides ∧
    (⟨⟨0, [1, 2, 3, 4, 5, 6]⟩, ⟨[1, 3], [Stride.pos 3, Stride.pos 1], 3⟩⟩ :
        Tensor Int).shape.sizes =
      (Shape.zip3 (Shape.new [2, 3] 0).sizes (Shape.new [2, 3] 0).strides
        ([(1, 2)] ++ List.replicate ((Shape.new [2, 3] 0).numdims -
          ([(1, 2)] : List (Nat × Nat)).length) (0, 0))).map
        (fun x => rangeEnd x.1 x.2.2.2 - x.2.2.1) ∧
    (((⟨⟨0, [1, 2, 3, 4, 5, 6]⟩, ⟨[1, 3], [Stride.pos 3, Stride.pos 1], 3⟩⟩ :
        Tensor Int).shape.offset : Int)) =
      sliceInit (Shape.new [2, 3] 0) +
        ((Shape.zip3 (Shape.new [2, 3] 0).sizes (Shape.new [2, 3] 0).strides
          ([(1, 2)] ++ List.replicate ((Shape.new [2, 3] 0).numdims -
            ([(1, 2)] : List (Nat × Nat)).length) (0, 0))).map
          sliceContribution).sum :=
  (C4_slice_spec ⟨⟨0, [1, 2, 3, 4, 5, 6]⟩, Shape.new [2, 3] 0⟩ [(1, 2)]).2
    ⟨⟨0, [1, 2, 3, 4, 5, 6]⟩, ⟨[1, 3], [Stride.pos 3, Stride.pos 1], 3⟩⟩ (by decide)

/-- Counterexample for C4 as stated: for a 1-d flipped view (sizes `[4]`,
stride `Negative(1)`, offset 0), `slice [(1,3)]` produces base offset 1,
whereas the claim's formula — the receiver's offset (0) retreated by
`(end-1)*magnitude = 2` — gives -2: the initial offset is
direction-dependent (`numel - 1 - offset`), not the receiver's offset. -/
theorem C4_counterexample :
    (Shape.slice ⟨[4], [Stride.neg 1], 0⟩ [(1, 3)]).map Shape.offset = some 1 ∧
    (1 : Int) ≠ (0 : Int) - (((3 - 1) * 1 : Nat) : Int) := by
  refine ⟨by decide, by decide⟩

/-- Witness for C7 at `broadcast([3,1],[1,4]) = [3,4]`. -/
theorem C7_witness :
    ([3, 4] : List Nat).length = max ([3, 1] : List Nat).length ([1, 4] : List Nat).length ∧
    ∀ i, i < ([3, 4] : List Nat).length →
      ([3, 4] : List Nat).reverse.getD i 0 =
        bcCombine ([3, 1] : List Nat).reverse ([1, 4] : List Nat).reverse i :=
  C7_broadcast.1 [3, 1] [1, 4] [3, 4] (by decide)

end VeNum
